import Mathlib

/-!
Verification of the txtdist edit-distance library (src/lib.rs).

Strings are modelled as `List Char` (Rust `char` and Lean `Char` are both
Unicode scalar values).  Rust's `str::len` is the UTF-8 byte count, i.e. the
sum of `char::len_utf8` over the characters; `utf8Len` below mirrors
`char::len_utf8` and `byteLen` mirrors `str::len`.  The flat 2-D buffer
`N2Array` and the two distance functions are translated statement by
statement from the source; machine integers (`usize`) are modelled as `Nat`,
and the trailing `as u32` casts of the two public functions are not
modelled (they are the identity whenever the byte lengths are below 2^32).
Out-of-range reads of the plain `N2Array.get` default to 0; the
bounds-checked variants at the end certify that the two functions never
perform such a read or write, so the plain model agrees with the panicking
Rust indexing on every reachable access.
-/

namespace Txtdist

/-- Mirror of Rust `char::len_utf8`: byte count of one character in UTF-8. -/
def utf8Len (c : Char) : Nat :=
  if c.toNat < 0x80 then 1
  else if c.toNat < 0x800 then 2
  else if c.toNat < 0x10000 then 3
  else 4

/-- Mirror of Rust `str::len` for a string given as its character list. -/
def byteLen (s : List Char) : Nat :=
  s.foldr (fun c acc => utf8Len c + acc) 0

/-- Mirror of the Rust struct `N2Array`: a flat buffer indexed in row-major
order, `buf[(x * y_size) + y]`. -/
structure N2Array where
  y_size : Nat
  buf : List Nat

/-- Mirror of `N2Array::new(x, y, value)`: `vec![value; x * y]`. -/
def N2Array.new (x y v : Nat) : N2Array :=
  ⟨y, List.replicate (x * y) v⟩

/-- Mirror of the `Index` impl: read `buf[(x * y_size) + y]` (out-of-range
reads are modelled as 0 here; `getChk` below models the bounds check). -/
def N2Array.get (a : N2Array) (x y : Nat) : Nat :=
  (a.buf.get? (x * a.y_size + y)).getD 0

/-- Mirror of the `IndexMut` impl: write `buf[(x * y_size) + y]`. -/
def N2Array.set (a : N2Array) (x y v : Nat) : N2Array :=
  ⟨a.y_size, a.buf.set (x * a.y_size + y) v⟩

/-- Ascending iteration `for k in 0..n { state = f k state }`. -/
def iterN (f : Nat → N2Array → N2Array) : Nat → N2Array → N2Array
  | 0, a => a
  | k + 1, a => f k (iterN f k a)

/-- Reference recursive Levenshtein distance over character lists, with the
`min` tree shaped exactly as the three-way `min` in the source. -/
def levRec : List Char → List Char → Nat
  | [], t => t.length
  | a :: s, [] => (a :: s).length
  | a :: s, b :: t =>
    if a = b then levRec s t
    else min (levRec s (b :: t) + 1) (min (levRec (a :: s) t + 1) (levRec s t + 1))

/-- Value of the `last_row` map (resp. the `last_match_col` variable) after
the first `k` items have been scanned: the 1-based position of the last
occurrence of `c` among `l[0..k-1]`, or 0 when there is none. -/
def lastIdx1 (l : List Char) (c : Char) : Nat → Nat
  | 0 => 0
  | k + 1 => if l.get? k = some c then k + 1 else lastIdx1 l c k

/-- Functional form of the Damerau-Levenshtein dynamic program of the source:
`Ddam inf s t i j` is the value the algorithm stores for the length-`i`
prefix of `s` against the length-`j` prefix of `t` (grid cell
`(i+1, j+1)`), with `inf` the sentinel border value.  The `min _ i`/`min _ j`
clamps on the transposition back-reference are no-ops (`lastIdx1_le`); they
only make termination structural. -/
def Ddam (inf : Nat) (s t : List Char) : Nat → Nat → Nat
  | i, 0 => i
  | 0, j + 1 => j + 1
  | i + 1, j + 1 =>
    let cs := s.getD i 'A'
    let ct := t.getD j 'A'
    let lmr := lastIdx1 s ct i
    let lmc := lastIdx1 t cs j
    let cost : Nat := if cs = ct then 0 else 1
    let dtrans :=
      (if lmr = 0 ∨ lmc = 0 then inf
       else Ddam inf s t (min (lmr - 1) i) (min (lmc - 1) j))
        + (i + 1 - lmr - 1) + 1 + (j + 1 - lmc - 1)
    min (min (Ddam inf s t i (j + 1) + 1) (Ddam inf s t (i + 1) j + 1))
      (min (Ddam inf s t i j + cost) dtrans)
termination_by i j => i + j
decreasing_by all_goals omega

/-- Inner loop of `levenshtein`: `for (col, char_t) in target.chars().enumerate()`.
The list argument is the remaining suffix of the target and `colIdx` the
0-based `col` of its head. -/
def levFillRow (char_s : Char) (row : Nat) :
    List Char → Nat → N2Array → N2Array
  | [], _, mat => mat
  | char_t :: rest, colIdx, mat =>
    let col := colIdx + 1
    let mat' :=
      if char_s = char_t then mat.set row col (mat.get (row - 1) (col - 1))
      else mat.set row col
        (min (mat.get (row - 1) col + 1)
          (min (mat.get row (col - 1) + 1) (mat.get (row - 1) (col - 1) + 1)))
    levFillRow char_s row rest col mat'

/-- Outer loop of `levenshtein`: `for (row, char_s) in source.chars().enumerate()`. -/
def levFill (t : List Char) : List Char → Nat → N2Array → N2Array
  | [], _, mat => mat
  | char_s :: rest, rowIdx, mat =>
    levFill t rest (rowIdx + 1) (levFillRow char_s (rowIdx + 1) t 0 mat)

/-- Mirror of `pub fn levenshtein(source: &str, target: &str) -> u32`. -/
def levenshtein (source target : List Char) : Nat :=
  let n := byteLen source
  let m := byteLen target
  let matrix := N2Array.new (n + 1) (m + 1) 0
  let matrix := iterN (fun k a => a.set (k + 1) 0 (k + 1)) n matrix
  let matrix := iterN (fun k a => a.set 0 (k + 1) (k + 1)) m matrix
  let matrix := levFill target source 0 matrix
  matrix.get n m

/-- Inner loop of `damerau_levenshtein`; `last_row` models the `BTreeMap`
(lookup with `unwrap_or(&0)`), `last_match_col` the mutable local. -/
def damFillCols (t : List Char) (char_s : Char) (row : Nat)
    (last_row : Char → Nat) :
    List Char → Nat → Nat → N2Array → N2Array
  | [], _, _, mat => mat
  | char_t :: rest, colIdx, last_match_col, mat =>
    let col := colIdx + 1
    let last_match_row := last_row char_t
    let cost : Nat := if char_s = char_t then 0 else 1
    let dist_add := mat.get row (col + 1) + 1
    let dist_del := mat.get (row + 1) col + 1
    let dist_sub := mat.get row col + cost
    let dist_trans := mat.get last_match_row last_match_col
        + (row - last_match_row - 1) + 1 + (col - last_match_col - 1)
    let dist := min (min dist_add dist_del) (min dist_sub dist_trans)
    let mat' := mat.set (row + 1) (col + 1) dist
    let lmc' := if cost = 0 then col else last_match_col
    damFillCols t char_s row last_row rest col lmc' mat'

/-- Outer loop of `damerau_levenshtein`; after each row the map records
`char_s → row`. -/
def damFillRows (t : List Char) :
    List Char → Nat → (Char → Nat) → N2Array → N2Array
  | [], _, _, mat => mat
  | char_s :: rest, rowIdx, last_row, mat =>
    let row := rowIdx + 1
    let mat' := damFillCols t char_s row last_row t 0 0 mat
    let last_row' := fun c => if c = char_s then row else last_row c
    damFillRows t rest row last_row' mat'

/-- Mirror of `pub fn damerau_levenshtein(source: &str, target: &str) -> u32`. -/
def damerau_levenshtein (source target : List Char) : Nat :=
  let n := byteLen source
  let m := byteLen target
  if n = 0 then m
  else if m = 0 then n
  else if n = m ∧ source = target then 0
  else
    let inf := n + m
    let matrix := N2Array.new (n + 2) (m + 2) 0
    let matrix := matrix.set 0 0 inf
    let matrix := iterN (fun i a => (a.set (i + 1) 0 inf).set (i + 1) 1 i)
      (n + 1) matrix
    let matrix := iterN (fun j a => (a.set 0 (j + 1) inf).set 1 (j + 1) j)
      (m + 1) matrix
    let matrix := damFillRows target source 0 (fun _ => 0) matrix
    matrix.get (n + 1) (m + 1)

/-- Value stored by the Levenshtein fill at grid cell `(i, j)`: the
recursive distance between the reversed length-`i` and length-`j`
prefixes. -/
def levCell (s t : List Char) (i j : Nat) : Nat :=
  levRec ((s.take i).reverse) ((t.take j).reverse)

/-- Checked natural subtraction: `none` exactly when the Rust `usize`
subtraction would underflow. -/
def csub (a b : Nat) : Option Nat := if b ≤ a then some (a - b) else none

/-- Inner Damerau loop with the two `dist_trans` subtractions checked:
`(row - last_match_row - 1)` and `(col - last_match_col - 1)` each go
through `csub`, so the result is `none` iff one of them underflows. -/
def damFillColsSub (t : List Char) (char_s : Char) (row : Nat)
    (last_row : Char → Nat) :
    List Char → Nat → Nat → N2Array → Option N2Array
  | [], _, _, mat => some mat
  | char_t :: rest, colIdx, last_match_col, mat =>
    let col := colIdx + 1
    let last_match_row := last_row char_t
    let cost : Nat := if char_s = char_t then 0 else 1
    let dist_add := mat.get row (col + 1) + 1
    let dist_del := mat.get (row + 1) col + 1
    let dist_sub := mat.get row col + cost
    (csub row last_match_row).bind fun d1 =>
    (csub d1 1).bind fun d2 =>
    (csub col last_match_col).bind fun d3 =>
    (csub d3 1).bind fun d4 =>
    let dist_trans := mat.get last_match_row last_match_col + d2 + 1 + d4
    let dist := min (min dist_add dist_del) (min dist_sub dist_trans)
    damFillColsSub t char_s row last_row rest col
      (if cost = 0 then col else last_match_col)
      (mat.set (row + 1) (col + 1) dist)

/-- Outer Damerau loop over the checked-subtraction inner loop. -/
def damFillRowsSub (t : List Char) :
    List Char → Nat → (Char → Nat) → N2Array → Option N2Array
  | [], _, _, mat => some mat
  | char_s :: rest, rowIdx, last_row, mat =>
    let row := rowIdx + 1
    (damFillColsSub t char_s row last_row t 0 0 mat).bind fun mat' =>
    damFillRowsSub t rest row (fun c => if c = char_s then row else last_row c)
      mat'

/-- `damerau_levenshtein` with the `dist_trans` subtractions checked. -/
def damerau_levenshteinSub (source target : List Char) : Option Nat :=
  let n := byteLen source
  let m := byteLen target
  if n = 0 then some m
  else if m = 0 then some n
  else if n = m ∧ source = target then some 0
  else
    let inf := n + m
    let matrix := N2Array.new (n + 2) (m + 2) 0
    let matrix := matrix.set 0 0 inf
    let matrix := iterN (fun i a => (a.set (i + 1) 0 inf).set (i + 1) 1 i)
      (n + 1) matrix
    let matrix := iterN (fun j a => (a.set 0 (j + 1) inf).set 1 (j + 1) j)
      (m + 1) matrix
    (damFillRowsSub target source 0 (fun _ => 0) matrix).map
      (fun mat => mat.get (n + 1) (m + 1))

/-- Checked read: `none` exactly when the linear index `x * y_size + y`
falls outside the backing buffer (the panicking branch of `Index`). -/
def N2Array.getChk (a : N2Array) (x y : Nat) : Option Nat :=
  a.buf.get? (x * a.y_size + y)

/-- Checked write: `none` exactly when the linear index is out of bounds
(the panicking branch of `IndexMut`). -/
def N2Array.setChk (a : N2Array) (x y v : Nat) : Option N2Array :=
  if x * a.y_size + y < a.buf.length
  then some ⟨a.y_size, a.buf.set (x * a.y_size + y) v⟩
  else none

/-- Checked ascending iteration. -/
def iterNChk (f : Nat → N2Array → Option N2Array) :
    Nat → N2Array → Option N2Array
  | 0, a => some a
  | k + 1, a => (iterNChk f k a).bind (f k)

/-- Inner Levenshtein loop with every grid access bounds-checked. -/
def levFillRowChk (char_s : Char) (row : Nat) :
    List Char → Nat → N2Array → Option N2Array
  | [], _, mat => some mat
  | char_t :: rest, colIdx, mat =>
    let col := colIdx + 1
    (if char_s = char_t then
      (mat.getChk (row - 1) (col - 1)).bind fun v =>
      mat.setChk row col v
    else
      (mat.getChk (row - 1) col).bind fun v1 =>
      (mat.getChk row (col - 1)).bind fun v2 =>
      (mat.getChk (row - 1) (col - 1)).bind fun v3 =>
      mat.setChk row col (min (v1 + 1) (min (v2 + 1) (v3 + 1)))).bind
      fun mat' => levFillRowChk char_s row rest col mat'

/-- Outer Levenshtein loop, bounds-checked. -/
def levFillChk (t : List Char) :
    List Char → Nat → N2Array → Option N2Array
  | [], _, mat => some mat
  | char_s :: rest, rowIdx, mat =>
    (levFillRowChk char_s (rowIdx + 1) t 0 mat).bind fun mat' =>
    levFillChk t rest (rowIdx + 1) mat'

/-- `levenshtein` with every grid access bounds-checked. -/
def levenshteinChk (source target : List Char) : Option Nat :=
  let n := byteLen source
  let m := byteLen target
  let mat := N2Array.new (n + 1) (m + 1) 0
  (iterNChk (fun k a => a.setChk (k + 1) 0 (k + 1)) n mat).bind fun mat =>
  (iterNChk (fun k a => a.setChk 0 (k + 1) (k + 1)) m mat).bind fun mat =>
  (levFillChk target source 0 mat).bind fun mat =>
  mat.getChk n m

/-- Inner Damerau loop with every grid access bounds-checked. -/
def damFillColsChk (t : List Char) (char_s : Char) (row : Nat)
    (last_row : Char → Nat) :
    List Char → Nat → Nat → N2Array → Option N2Array
  | [], _, _, mat => some mat
  | char_t :: rest, colIdx, last_match_col, mat =>
    let col := colIdx + 1
    let last_match_row := last_row char_t
    let cost : Nat := if char_s = char_t then 0 else 1
    (mat.getChk row (col + 1)).bind fun g1 =>
    (mat.getChk (row + 1) col).bind fun g2 =>
    (mat.getChk row col).bind fun g3 =>
    (mat.getChk last_match_row last_match_col).bind fun g4 =>
    let dist := min (min (g1 + 1) (g2 + 1))
      (min (g3 + cost)
        (g4 + (row - last_match_row - 1) + 1 + (col - last_match_col - 1)))
    (mat.setChk (row + 1) (col + 1) dist).bind fun mat' =>
    damFillColsChk t char_s row last_row rest col
      (if cost = 0 then col else last_match_col) mat'

/-- Outer Damerau loop, bounds-checked. -/
def damFillRowsChk (t : List Char) :
    List Char → Nat → (Char → Nat) → N2Array → Option N2Array
  | [], _, _, mat => some mat
  | char_s :: rest, rowIdx, last_row, mat =>
    let row := rowIdx + 1
    (damFillColsChk t char_s row last_row t 0 0 mat).bind fun mat' =>
    damFillRowsChk t rest row
      (fun c => if c = char_s then row else last_row c) mat'

/-- `damerau_levenshtein` with every grid access bounds-checked. -/
def damerau_levenshteinChk (source target : List Char) : Option Nat :=
  let n := byteLen source
  let m := byteLen target
  if n = 0 then some m
  else if m = 0 then some n
  else if n = m ∧ source = target then some 0
  else
    let inf := n + m
    ((N2Array.new (n + 2) (m + 2) 0).setChk 0 0 inf).bind fun mat =>
    (iterNChk (fun i a => (a.setChk (i + 1) 0 inf).bind fun a' =>
      a'.setChk (i + 1) 1 i) (n + 1) mat).bind fun mat =>
    (iterNChk (fun j a => (a.setChk 0 (j + 1) inf).bind fun a' =>
      a'.setChk 1 (j + 1) j) (m + 1) mat).bind fun mat =>
    (damFillRowsChk target source 0 (fun _ => 0) mat).bind fun mat =>
    mat.getChk (n + 1) (m + 1)

theorem byteLen_nil : byteLen [] = 0 := rfl

theorem byteLen_cons (c : Char) (s : List Char) :
    byteLen (c :: s) = utf8Len c + byteLen s := rfl

theorem one_le_utf8Len (c : Char) : 1 ≤ utf8Len c := by
  unfold utf8Len
  split
  · omega
  split
  · omega
  split <;> omega

theorem length_le_byteLen (s : List Char) : s.length ≤ byteLen s := by
  induction s with
  | nil => simp [byteLen_nil]
  | cons c s ih =>
    have := one_le_utf8Len c
    simp only [List.length_cons, byteLen_cons]
    omega

theorem byteLen_eq_zero_iff (s : List Char) : byteLen s = 0 ↔ s = [] := by
  cases s with
  | nil => simp [byteLen_nil]
  | cons c s =>
    have := one_le_utf8Len c
    simp only [byteLen_cons]
    constructor
    · intro h; omega
    · intro h; cases h

theorem N2Array.y_size_set (a : N2Array) (x y v : Nat) :
    (a.set x y v).y_size = a.y_size := rfl

theorem N2Array.length_buf_set (a : N2Array) (x y v : Nat) :
    (a.set x y v).buf.length = a.buf.length := by
  simp [N2Array.set]

theorem N2Array.y_size_new (x y v : Nat) : (N2Array.new x y v).y_size = y := rfl

theorem N2Array.length_buf_new (x y v : Nat) :
    (N2Array.new x y v).buf.length = x * y := by
  simp [N2Array.new]

theorem linearIndex_injective {ys x₁ y₁ x₂ y₂ : Nat}
    (h₁ : y₁ < ys) (h₂ : y₂ < ys)
    (h : x₁ * ys + y₁ = x₂ * ys + y₂) : x₁ = x₂ ∧ y₁ = y₂ := by
  have hy : y₁ = y₂ := by
    have hm : (x₁ * ys + y₁) % ys = (x₂ * ys + y₂) % ys := by rw [h]
    rwa [Nat.mul_comm x₁ ys, Nat.mul_comm x₂ ys, Nat.mul_add_mod,
      Nat.mul_add_mod, Nat.mod_eq_of_lt h₁, Nat.mod_eq_of_lt h₂] at hm
  subst hy
  refine ⟨?_, rfl⟩
  have hx : x₁ * ys = x₂ * ys := by omega
  have hys : 0 < ys := Nat.lt_of_le_of_lt (Nat.zero_le _) h₁
  exact Nat.eq_of_mul_eq_mul_right hys hx

theorem N2Array.get_set_self (a : N2Array) (x y v : Nat)
    (h : x * a.y_size + y < a.buf.length) :
    (a.set x y v).get x y = v := by
  simp [N2Array.set, N2Array.get, List.getElem?_set_eq_of_lt _ h]

theorem N2Array.get_set_ne (a : N2Array) {x₁ y₁ x₂ y₂ : Nat} (v : Nat)
    (hy₁ : y₁ < a.y_size) (hy₂ : y₂ < a.y_size)
    (hne : x₁ ≠ x₂ ∨ y₁ ≠ y₂) :
    (a.set x₁ y₁ v).get x₂ y₂ = a.get x₂ y₂ := by
  have hlin : x₁ * a.y_size + y₁ ≠ x₂ * a.y_size + y₂ := by
    intro h
    rcases linearIndex_injective hy₁ hy₂ h with ⟨hx, hy⟩
    rcases hne with h' | h' <;> exact h' (by omega)
  simp [N2Array.set, N2Array.get, List.getElem?_set_ne hlin]

theorem N2Array.get_new (x y v i j : Nat) :
    (N2Array.new x y v).get i j = if i * y + j < x * y then v else 0 := by
  simp only [N2Array.new, N2Array.get, List.get?_eq_getElem?]
  by_cases h : i * y + j < x * y
  · simp [List.getElem?_replicate, h]
  · rw [List.getElem?_eq_none (by simpa [List.length_replicate] using h)]
    simp [h]

theorem levRec_nil_left (t : List Char) : levRec [] t = t.length := by
  simp [levRec]

theorem levRec_nil_right (s : List Char) : levRec s [] = s.length := by
  cases s <;> simp [levRec]

theorem levRec_cons_cons (a b : Char) (s t : List Char) :
    levRec (a :: s) (b :: t) =
      if a = b then levRec s t
      else min (levRec s (b :: t) + 1)
        (min (levRec (a :: s) t + 1) (levRec s t + 1)) := by
  simp [levRec]

theorem levRec_self (s : List Char) : levRec s s = 0 := by
  induction s with
  | nil => simp [levRec]
  | cons a s ih => simp [levRec_cons_cons, ih]

theorem levRec_symm_aux :
    ∀ N s t, s.length + t.length ≤ N → levRec s t = levRec t s := by
  intro N
  induction N with
  | zero =>
    intro s t h
    have hs : s = [] := by cases s <;> simp_all
    have ht : t = [] := by cases t <;> simp_all
    simp [hs, ht]
  | succ N ih =>
    intro s t h
    cases s with
    | nil => simp [levRec_nil_left, levRec_nil_right]
    | cons a s =>
      cases t with
      | nil => simp [levRec_nil_left, levRec_nil_right]
      | cons b t =>
        simp only [levRec_cons_cons]
        by_cases hab : a = b
        · subst hab
          simp only [if_pos rfl]
          exact ih s t (by simp at h ⊢; omega)
        · rw [if_neg hab, if_neg (fun h' => hab h'.symm)]
          rw [ih s (b :: t) (by simp at h ⊢; omega),
              ih (a :: s) t (by simp at h ⊢; omega),
              ih s t (by simp at h ⊢; omega)]
          omega

theorem levRec_symm (s t : List Char) : levRec s t = levRec t s :=
  levRec_symm_aux (s.length + t.length) s t (Nat.le_refl _)

theorem lastIdx1_le (l : List Char) (c : Char) : ∀ k, lastIdx1 l c k ≤ k := by
  intro k
  induction k with
  | zero => simp [lastIdx1]
  | succ k ih =>
    simp only [lastIdx1]
    split
    · omega
    · omega

theorem Ddam_zero_right (inf : Nat) (s t : List Char) (i : Nat) :
    Ddam inf s t i 0 = i := by
  cases i <;> simp [Ddam]

theorem Ddam_zero_left (inf : Nat) (s t : List Char) (j : Nat) :
    Ddam inf s t 0 j = j := by
  cases j <;> simp [Ddam]

theorem Ddam_succ_succ (inf : Nat) (s t : List Char) (i j : Nat) :
    Ddam inf s t (i + 1) (j + 1) =
      min (min (Ddam inf s t i (j + 1) + 1) (Ddam inf s t (i + 1) j + 1))
        (min (Ddam inf s t i j + (if s.getD i 'A' = t.getD j 'A' then 0 else 1))
          ((if lastIdx1 s (t.getD j 'A') i = 0 ∨ lastIdx1 t (s.getD i 'A') j = 0
              then inf
              else Ddam inf s t (lastIdx1 s (t.getD j 'A') i - 1)
                (lastIdx1 t (s.getD i 'A') j - 1))
            + (i + 1 - lastIdx1 s (t.getD j 'A') i - 1) + 1
            + (j + 1 - lastIdx1 t (s.getD i 'A') j - 1))) := by
  have h1 : min (lastIdx1 s (t.getD j 'A') i - 1) i
      = lastIdx1 s (t.getD j 'A') i - 1 := by
    have := lastIdx1_le s (t.getD j 'A') i; omega
  have h2 : min (lastIdx1 t (s.getD i 'A') j - 1) j
      = lastIdx1 t (s.getD i 'A') j - 1 := by
    have := lastIdx1_le t (s.getD i 'A') j; omega
  conv_lhs => rw [Ddam]
  rw [h1, h2]

theorem Ddam_symm_aux (inf : Nat) (s t : List Char) :
    ∀ N i j, i + j ≤ N → Ddam inf s t i j = Ddam inf t s j i := by
  intro N
  induction N with
  | zero =>
    intro i j h
    have hi : i = 0 := by omega
    have hj : j = 0 := by omega
    subst hi; subst hj
    rw [Ddam_zero_right, Ddam_zero_right]
  | succ N ih =>
    intro i j h
    cases i with
    | zero => rw [Ddam_zero_left, Ddam_zero_right]
    | succ i =>
      cases j with
      | zero => rw [Ddam_zero_left, Ddam_zero_right]
      | succ j =>
        rw [Ddam_succ_succ, Ddam_succ_succ]
        have e1 : Ddam inf s t i (j + 1) = Ddam inf t s (j + 1) i :=
          ih i (j + 1) (by omega)
        have e2 : Ddam inf s t (i + 1) j = Ddam inf t s j (i + 1) :=
          ih (i + 1) j (by omega)
        have e3 : Ddam inf s t i j = Ddam inf t s j i := ih i j (by omega)
        have hcost : (if s.getD i 'A' = t.getD j 'A' then (0 : Nat) else 1)
            = (if t.getD j 'A' = s.getD i 'A' then (0 : Nat) else 1) := by
          by_cases hc : s.getD i 'A' = t.getD j 'A'
          · rw [if_pos hc, if_pos hc.symm]
          · rw [if_neg hc, if_neg (fun h' => hc (Eq.symm h'))]
        have hlr := lastIdx1_le s (t.getD j 'A') i
        have hlc := lastIdx1_le t (s.getD i 'A') j
        have e4 : (if lastIdx1 s (t.getD j 'A') i = 0
              ∨ lastIdx1 t (s.getD i 'A') j = 0 then inf
            else Ddam inf s t (lastIdx1 s (t.getD j 'A') i - 1)
              (lastIdx1 t (s.getD i 'A') j - 1))
            = (if lastIdx1 t (s.getD i 'A') j = 0
              ∨ lastIdx1 s (t.getD j 'A') i = 0 then inf
            else Ddam inf t s (lastIdx1 t (s.getD i 'A') j - 1)
              (lastIdx1 s (t.getD j 'A') i - 1)) := by
          by_cases hz : lastIdx1 s (t.getD j 'A') i = 0
              ∨ lastIdx1 t (s.getD i 'A') j = 0
          · rw [if_pos hz, if_pos (Or.symm hz)]
          · rw [if_neg hz, if_neg (fun h' => hz (Or.symm h'))]
            exact ih _ _ (by omega)
        rw [e1, e2, e3, hcost, e4]
        omega

theorem Ddam_symm (inf : Nat) (s t : List Char) (i j : Nat) :
    Ddam inf s t i j = Ddam inf t s j i :=
  Ddam_symm_aux inf s t (i + j) i j (Nat.le_refl _)

theorem reverse_take_succ (l : List Char) (i : Nat) (h : i < l.length) :
    (l.take (i + 1)).reverse = l.getD i 'A' :: (l.take i).reverse := by
  rw [List.take_succ]
  have hget : l[i]? = some (l.getD i 'A') := by
    rw [List.getElem?_eq_getElem h]
    simp [List.getD_eq_getElem?_getD, List.getElem?_eq_getElem h]
  rw [hget]
  simp

theorem Ddam_le_levRec_aux (inf : Nat) (s t : List Char) :
    ∀ N i j, i + j ≤ N → i ≤ s.length → j ≤ t.length →
      Ddam inf s t i j ≤ levRec ((s.take i).reverse) ((t.take j).reverse) := by
  intro N
  induction N with
  | zero =>
    intro i j h _ _
    have hi : i = 0 := by omega
    have hj : j = 0 := by omega
    subst hi; subst hj
    simp [Ddam_zero_right, levRec_nil_left]
  | succ N ih =>
    intro i j h hi hj
    cases i with
    | zero =>
      rw [Ddam_zero_left]
      rw [List.take_zero, List.reverse_nil, levRec_nil_left]
      simp [Nat.min_eq_left hj]
    | succ i =>
      cases j with
      | zero =>
        rw [Ddam_zero_right]
        rw [List.take_zero, List.reverse_nil, levRec_nil_right]
        simp [Nat.min_eq_left hi]
      | succ j =>
        have hi' : i < s.length := by omega
        have hj' : j < t.length := by omega
        rw [Ddam_succ_succ, reverse_take_succ s i hi', reverse_take_succ t j hj',
          levRec_cons_cons]
        have e1 := ih i (j + 1) (by omega) (by omega) hj
        have e2 := ih (i + 1) j (by omega) hi (by omega)
        have e3 := ih i j (by omega) (by omega) (by omega)
        rw [reverse_take_succ t j hj'] at e1
        rw [reverse_take_succ s i hi'] at e2
        by_cases hc : s.getD i 'A' = t.getD j 'A'
        · rw [if_pos hc, if_pos hc]
          omega
        · rw [if_neg hc, if_neg hc]
          omega

theorem Ddam_le_levRec (inf : Nat) (s t : List Char) :
    Ddam inf s t s.length t.length ≤ levRec s.reverse t.reverse := by
  have := Ddam_le_levRec_aux inf s t (s.length + t.length) s.length t.length
    (Nat.le_refl _) (Nat.le_refl _) (Nat.le_refl _)
  simpa [List.take_length] using this

/-- Row-major coordinates in range give a linear index inside the buffer. -/
theorem coordLt {a b n m : Nat} (ha : a ≤ n) (hb : b ≤ m) :
    a * (m + 1) + b < (n + 1) * (m + 1) := by
  have h1 : (a + 1) * (m + 1) = a * (m + 1) + (m + 1) := by ring
  have h2 : (a + 1) * (m + 1) ≤ (n + 1) * (m + 1) :=
    Nat.mul_le_mul_right _ (by omega)
  omega

theorem iterN_y_size (f : Nat → N2Array → N2Array)
    (hf : ∀ k a, (f k a).y_size = a.y_size) :
    ∀ k mat, (iterN f k mat).y_size = mat.y_size := by
  intro k
  induction k with
  | zero => intro mat; rfl
  | succ k ih => intro mat; rw [iterN, hf, ih]

theorem iterN_buf_length (f : Nat → N2Array → N2Array)
    (hf : ∀ k a, (f k a).buf.length = a.buf.length) :
    ∀ k mat, (iterN f k mat).buf.length = mat.buf.length := by
  intro k
  induction k with
  | zero => intro mat; rfl
  | succ k ih => intro mat; rw [iterN, hf, ih]

theorem levCell_zero_left (s t : List Char) (j : Nat) (hj : j ≤ t.length) :
    levCell s t 0 j = j := by
  simp [levCell, levRec_nil_left, Nat.min_eq_left hj]

theorem levCell_zero_right (s t : List Char) (i : Nat) (hi : i ≤ s.length) :
    levCell s t i 0 = i := by
  simp [levCell, levRec_nil_right, Nat.min_eq_left hi]

theorem levCell_succ_succ (s t : List Char) (i j : Nat)
    (hi : i < s.length) (hj : j < t.length) :
    levCell s t (i + 1) (j + 1) =
      if s.getD i 'A' = t.getD j 'A' then levCell s t i j
      else min (levCell s t i (j + 1) + 1)
        (min (levCell s t (i + 1) j + 1) (levCell s t i j + 1)) := by
  simp only [levCell]
  rw [reverse_take_succ s i hi, reverse_take_succ t j hj, levRec_cons_cons]

theorem levInit1_get (n m : Nat) :
    ∀ k mat, k ≤ n → mat.y_size = m + 1 →
      mat.buf.length = (n + 1) * (m + 1) →
      ∀ a b, b ≤ m →
        (iterN (fun k a => a.set (k + 1) 0 (k + 1)) k mat).get a b =
          if b = 0 ∧ 1 ≤ a ∧ a ≤ k then a else mat.get a b := by
  intro k
  induction k with
  | zero =>
    intro mat _ _ _ a b _
    rw [iterN, if_neg (by omega)]
  | succ k ih =>
    intro mat hk hy hl a b hb
    rw [iterN]
    have hy' := iterN_y_size (fun k a => a.set (k + 1) 0 (k + 1))
      (fun _ _ => rfl) k mat
    have hl' := iterN_buf_length (fun k a => a.set (k + 1) 0 (k + 1))
      (fun _ _ => by simp [N2Array.length_buf_set]) k mat
    by_cases hab : a = k + 1 ∧ b = 0
    · rcases hab with ⟨rfl, rfl⟩
      rw [N2Array.get_set_self _ _ _ _
        (by rw [hl', hl, hy', hy]; exact coordLt (by omega) (by omega))]
      rw [if_pos (by omega)]
    · rw [N2Array.get_set_ne _ _ (by rw [hy', hy]; omega)
        (by rw [hy', hy]; omega) (by omega)]
      rw [ih mat (by omega) hy hl a b hb]
      split_ifs <;> first | rfl | omega


theorem levInit2_get (n m : Nat) :
    ∀ k mat, k ≤ m → mat.y_size = m + 1 →
      mat.buf.length = (n + 1) * (m + 1) →
      ∀ a b, b ≤ m →
        (iterN (fun k a => a.set 0 (k + 1) (k + 1)) k mat).get a b =
          if a = 0 ∧ 1 ≤ b ∧ b ≤ k then b else mat.get a b := by
  intro k
  induction k with
  | zero =>
    intro mat _ _ _ a b _
    rw [iterN, if_neg (by omega)]
  | succ k ih =>
    intro mat hk hy hl a b hb
    rw [iterN]
    have hy' := iterN_y_size (fun k a => a.set 0 (k + 1) (k + 1))
      (fun _ _ => rfl) k mat
    have hl' := iterN_buf_length (fun k a => a.set 0 (k + 1) (k + 1))
      (fun _ _ => by simp [N2Array.length_buf_set]) k mat
    by_cases hab : a = 0 ∧ b = k + 1
    · rcases hab with ⟨rfl, rfl⟩
      rw [N2Array.get_set_self _ _ _ _
        (by rw [hl', hl, hy', hy]; exact coordLt (by omega) (by omega))]
      rw [if_pos (by omega)]
    · rw [N2Array.get_set_ne _ _ (by rw [hy', hy]; omega)
        (by rw [hy', hy]; omega) (by omega)]
      rw [ih mat (by omega) hy hl a b hb]
      split_ifs <;> first | rfl | omega

theorem levFillRow_y_size (char_s : Char) (row : Nat) :
    ∀ rest colIdx mat,
      (levFillRow char_s row rest colIdx mat).y_size = mat.y_size := by
  intro rest
  induction rest with
  | nil => intro colIdx mat; rfl
  | cons c rest ih =>
    intro colIdx mat
    simp only [levFillRow]
    rw [ih]
    split <;> rfl

theorem levFillRow_buf_length (char_s : Char) (row : Nat) :
    ∀ rest colIdx mat,
      (levFillRow char_s row rest colIdx mat).buf.length = mat.buf.length := by
  intro rest
  induction rest with
  | nil => intro colIdx mat; rfl
  | cons c rest ih =>
    intro colIdx mat
    simp only [levFillRow]
    rw [ih]
    split <;> simp [N2Array.length_buf_set]

theorem levFillRow_get (s t : List Char) (char_s : Char) (rowIdx : Nat)
    (hrow : rowIdx < s.length) (hchar : s.getD rowIdx 'A' = char_s) :
    ∀ rest colIdx mat,
      t.drop colIdx = rest →
      mat.y_size = byteLen t + 1 →
      mat.buf.length = (byteLen s + 1) * (byteLen t + 1) →
      (∀ j, j ≤ t.length → mat.get rowIdx j = levCell s t rowIdx j) →
      mat.get (rowIdx + 1) 0 = rowIdx + 1 →
      (∀ j, 1 ≤ j → j ≤ colIdx →
        mat.get (rowIdx + 1) j = levCell s t (rowIdx + 1) j) →
      ∀ a b, b ≤ byteLen t →
        (levFillRow char_s (rowIdx + 1) rest colIdx mat).get a b =
          if a = rowIdx + 1 ∧ colIdx + 1 ≤ b ∧ b ≤ colIdx + rest.length
          then levCell s t a b
          else mat.get a b := by
  intro rest
  induction rest with
  | nil =>
    intro colIdx mat _ _ _ _ _ _ a b _
    simp only [levFillRow, List.length_nil]
    rw [if_neg (by omega)]
  | cons char_t rest ih =>
    intro colIdx mat hdrop hy hl hprev h0 hpart a b hb
    have hms := length_le_byteLen s
    have hmt := length_le_byteLen t
    have hColLt : colIdx < t.length := by
      have := congrArg List.length hdrop
      simp [List.length_drop] at this
      omega
    have hcons := List.drop_eq_getElem_cons (l := t) (n := colIdx) hColLt
    rw [hdrop, List.cons.injEq] at hcons
    have hgetc : t[colIdx] = char_t := hcons.1.symm
    have hdrop' : t.drop (colIdx + 1) = rest := hcons.2.symm
    have hchar_t : t.getD colIdx 'A' = char_t := by
      simp [List.getD_eq_getElem?_getD, List.getElem?_eq_getElem hColLt, hgetc]
    have hlen_eq : colIdx + 1 + rest.length = t.length := by
      have := congrArg List.length hdrop
      simp [List.length_drop] at this
      omega
    have hv : (if char_s = char_t
          then mat.get rowIdx colIdx
          else min (mat.get rowIdx (colIdx + 1) + 1)
            (min (mat.get (rowIdx + 1) colIdx + 1)
              (mat.get rowIdx colIdx + 1)))
        = levCell s t (rowIdx + 1) (colIdx + 1) := by
      rw [levCell_succ_succ s t rowIdx colIdx hrow hColLt, hchar, hchar_t]
      rw [hprev colIdx (by omega), hprev (colIdx + 1) (by omega)]
      rcases Nat.eq_zero_or_pos colIdx with hc0 | hcpos
      · subst hc0
        rw [h0, levCell_zero_right s t (rowIdx + 1) (by omega)]
      · rw [hpart colIdx hcpos (Nat.le_refl _)]
    simp only [levFillRow, Nat.add_sub_cancel]
    rw [← apply_ite (mat.set (rowIdx + 1) (colIdx + 1)), hv]
    have hsetY : (mat.set (rowIdx + 1) (colIdx + 1)
        (levCell s t (rowIdx + 1) (colIdx + 1))).y_size = byteLen t + 1 := by
      rw [N2Array.y_size_set, hy]
    have hsetL : (mat.set (rowIdx + 1) (colIdx + 1)
        (levCell s t (rowIdx + 1) (colIdx + 1))).buf.length
        = (byteLen s + 1) * (byteLen t + 1) := by
      rw [N2Array.length_buf_set, hl]
    rw [ih (colIdx + 1) _ hdrop' hsetY hsetL
      (fun j hj => by
        rw [N2Array.get_set_ne _ _ (by rw [hy]; omega) (by rw [hy]; omega)
          (by omega)]
        exact hprev j hj)
      (by
        rw [N2Array.get_set_ne _ _ (by rw [hy]; omega) (by rw [hy]; omega)
          (by omega)]
        exact h0)
      (fun j hj1 hj2 => by
        rcases Nat.lt_or_ge j (colIdx + 1) with hlt | hge
        · rw [N2Array.get_set_ne _ _ (by rw [hy]; omega) (by rw [hy]; omega)
            (by omega)]
          exact hpart j hj1 (by omega)
        · have hjeq : j = colIdx + 1 := by omega
          subst hjeq
          rw [N2Array.get_set_self _ _ _ _
            (by rw [hl, hy]; exact coordLt (by omega) (by omega))])
      a b hb]
    have hset_get : (mat.set (rowIdx + 1) (colIdx + 1)
          (levCell s t (rowIdx + 1) (colIdx + 1))).get a b
        = if a = rowIdx + 1 ∧ b = colIdx + 1
          then levCell s t (rowIdx + 1) (colIdx + 1)
          else mat.get a b := by
      by_cases hcase : a = rowIdx + 1 ∧ b = colIdx + 1
      · rcases hcase with ⟨rfl, rfl⟩
        rw [if_pos ⟨rfl, rfl⟩]
        exact N2Array.get_set_self _ _ _ _
          (by rw [hl, hy]; exact coordLt (by omega) (by omega))
      · rw [if_neg hcase]
        exact N2Array.get_set_ne _ _ (by rw [hy]; omega) (by rw [hy]; omega)
          (by omega)
    rw [hset_get]
    by_cases h1 : a = rowIdx + 1 ∧ colIdx + 1 + 1 ≤ b ∧ b ≤ colIdx + 1 + rest.length
    · rw [if_pos h1, if_pos (show a = rowIdx + 1 ∧ colIdx + 1 ≤ b
        ∧ b ≤ colIdx + (char_t :: rest).length from by
          simp only [List.length_cons]; omega)]
    · rw [if_neg h1]
      by_cases h3 : a = rowIdx + 1 ∧ b = colIdx + 1
      · rcases h3 with ⟨rfl, rfl⟩
        rw [if_pos (show rowIdx + 1 = rowIdx + 1 ∧ colIdx + 1 = colIdx + 1
            from ⟨rfl, rfl⟩),
          if_pos (show rowIdx + 1 = rowIdx + 1 ∧ colIdx + 1 ≤ colIdx + 1
            ∧ colIdx + 1 ≤ colIdx + (char_t :: rest).length from
              ⟨rfl, Nat.le_refl _, by simp only [List.length_cons]; omega⟩)]
      · rw [if_neg h3, if_neg (show ¬(a = rowIdx + 1 ∧ colIdx + 1 ≤ b
          ∧ b ≤ colIdx + (char_t :: rest).length) from by
            simp only [List.length_cons]; omega)]

theorem levFill_y_size (t : List Char) :
    ∀ rest rowIdx mat, (levFill t rest rowIdx mat).y_size = mat.y_size := by
  intro rest
  induction rest with
  | nil => intro rowIdx mat; rfl
  | cons c rest ih =>
    intro rowIdx mat
    simp only [levFill]
    rw [ih, levFillRow_y_size]

theorem levFill_buf_length (t : List Char) :
    ∀ rest rowIdx mat,
      (levFill t rest rowIdx mat).buf.length = mat.buf.length := by
  intro rest
  induction rest with
  | nil => intro rowIdx mat; rfl
  | cons c rest ih =>
    intro rowIdx mat
    simp only [levFill]
    rw [ih, levFillRow_buf_length]

theorem levFill_get (s t : List Char) :
    ∀ rest rowIdx mat,
      s.drop rowIdx = rest →
      rowIdx ≤ s.length →
      mat.y_size = byteLen t + 1 →
      mat.buf.length = (byteLen s + 1) * (byteLen t + 1) →
      (∀ i, i ≤ byteLen s → mat.get i 0 = i) →
      (∀ j, j ≤ byteLen t → mat.get 0 j = j) →
      (∀ i j, 1 ≤ i → i ≤ rowIdx → 1 ≤ j → j ≤ t.length →
        mat.get i j = levCell s t i j) →
      ∀ a b, b ≤ byteLen t →
        (levFill t rest rowIdx mat).get a b =
          if rowIdx + 1 ≤ a ∧ a ≤ rowIdx + rest.length ∧ 1 ≤ b ∧ b ≤ t.length
          then levCell s t a b
          else mat.get a b := by
  intro rest
  induction rest with
  | nil =>
    intro rowIdx mat _ _ _ _ _ _ _ a b _
    simp only [levFill, List.length_nil]
    rw [if_neg (by omega)]
  | cons char_s rest ih =>
    intro rowIdx mat hdrop hrle hy hl hcol0 hrow0 hreg a b hb
    have hns := length_le_byteLen s
    have hmt := length_le_byteLen t
    have hRowLt : rowIdx < s.length := by
      have := congrArg List.length hdrop
      simp [List.length_drop] at this
      omega
    have hcons := List.drop_eq_getElem_cons (l := s) (n := rowIdx) hRowLt
    rw [hdrop, List.cons.injEq] at hcons
    have hdrop' : s.drop (rowIdx + 1) = rest := hcons.2.symm
    have hchar : s.getD rowIdx 'A' = char_s := by
      simp [List.getD_eq_getElem?_getD, List.getElem?_eq_getElem hRowLt,
        hcons.1.symm]
    have hprevRow : ∀ j, j ≤ t.length → mat.get rowIdx j = levCell s t rowIdx j := by
      intro j hj
      rcases Nat.eq_zero_or_pos j with rfl | hjpos
      · rw [hcol0 rowIdx (by omega), levCell_zero_right s t rowIdx (by omega)]
      · rcases Nat.eq_zero_or_pos rowIdx with hr0 | hrpos
        · rw [hr0, hrow0 j (by omega), levCell_zero_left s t j hj]
        · exact hreg rowIdx j hrpos (Nat.le_refl _) hjpos hj
    have h0 : mat.get (rowIdx + 1) 0 = rowIdx + 1 := hcol0 (rowIdx + 1) (by omega)
    have hInner := levFillRow_get s t char_s rowIdx hRowLt hchar t 0 mat rfl
      hy hl hprevRow h0 (fun j hj1 hj2 => absurd hj1 (by omega))
    simp only [levFill]
    have hInnerY : (levFillRow char_s (rowIdx + 1) t 0 mat).y_size
        = byteLen t + 1 := by rw [levFillRow_y_size, hy]
    have hInnerL : (levFillRow char_s (rowIdx + 1) t 0 mat).buf.length
        = (byteLen s + 1) * (byteLen t + 1) := by rw [levFillRow_buf_length, hl]
    rw [ih (rowIdx + 1) _ hdrop' (by omega) hInnerY hInnerL
      (fun i hi => by
        rw [hInner i 0 (by omega), if_neg (by omega)]
        exact hcol0 i hi)
      (fun j hj => by
        rw [hInner 0 j hj, if_neg (by omega)]
        exact hrow0 j hj)
      (fun i j hi1 hi2 hj1 hj2 => by
        rw [hInner i j (by omega)]
        by_cases hcase : i = rowIdx + 1
        · rw [if_pos ⟨hcase, by omega, by omega⟩, hcase]
        · rw [if_neg (fun hc => hcase hc.1)]
          exact hreg i j hi1 (by omega) hj1 hj2)
      a b hb]
    by_cases hA : rowIdx + 1 + 1 ≤ a ∧ a ≤ rowIdx + 1 + rest.length
        ∧ 1 ≤ b ∧ b ≤ t.length
    · rw [if_pos hA, if_pos (show rowIdx + 1 ≤ a
        ∧ a ≤ rowIdx + (char_s :: rest).length ∧ 1 ≤ b ∧ b ≤ t.length from
        ⟨by omega, by simp only [List.length_cons]; omega, hA.2.2.1, hA.2.2.2⟩)]
    · rw [if_neg hA, hInner a b hb]
      by_cases hB : a = rowIdx + 1 ∧ 0 + 1 ≤ b ∧ b ≤ 0 + t.length
      · rw [if_pos hB, if_pos (show rowIdx + 1 ≤ a
          ∧ a ≤ rowIdx + (char_s :: rest).length ∧ 1 ≤ b ∧ b ≤ t.length from
          ⟨by omega, by simp only [List.length_cons]; omega, by omega, by omega⟩)]
      · rw [if_neg hB, if_neg (show ¬(rowIdx + 1 ≤ a
          ∧ a ≤ rowIdx + (char_s :: rest).length ∧ 1 ≤ b ∧ b ≤ t.length) from by
            simp only [List.length_cons]
            intro hC
            rcases hC with ⟨hC1, hC2, hC3, hC4⟩
            rcases Nat.eq_or_lt_of_le hC1 with heq | hlt
            · exact hB ⟨heq.symm, by omega, by omega⟩
            · exact hA ⟨by omega, by omega, hC3, hC4⟩)]

/-- Closed form of the Levenshtein implementation.  Because the grid is
allocated and the result cell addressed with byte lengths while the fill
loops run over characters, the function returns the recursive distance only
when every character of both strings is a single UTF-8 byte; with a
multi-byte character on either side and both strings non-empty it returns
the untouched cell value 0, and with an empty argument it returns the byte
length of the other string. -/
theorem lev_eq (s t : List Char) :
    levenshtein s t =
      if s = [] then byteLen t
      else if t = [] then byteLen s
      else if byteLen s = s.length ∧ byteLen t = t.length
      then levRec s.reverse t.reverse
      else 0 := by
  have hns := length_le_byteLen s
  have hmt := length_le_byteLen t
  simp only [levenshtein]
  have hM1y : (iterN (fun k a => a.set (k + 1) 0 (k + 1)) (byteLen s)
      (N2Array.new (byteLen s + 1) (byteLen t + 1) 0)).y_size
      = byteLen t + 1 := by
    rw [iterN_y_size (fun k a => a.set (k + 1) 0 (k + 1)) (fun _ _ => rfl),
      N2Array.y_size_new]
  have hM1l : (iterN (fun k a => a.set (k + 1) 0 (k + 1)) (byteLen s)
      (N2Array.new (byteLen s + 1) (byteLen t + 1) 0)).buf.length
      = (byteLen s + 1) * (byteLen t + 1) := by
    rw [iterN_buf_length (fun k a => a.set (k + 1) 0 (k + 1))
      (fun _ _ => by simp [N2Array.length_buf_set]), N2Array.length_buf_new]
  have hM0y : (iterN (fun k a => a.set 0 (k + 1) (k + 1)) (byteLen t)
      (iterN (fun k a => a.set (k + 1) 0 (k + 1)) (byteLen s)
        (N2Array.new (byteLen s + 1) (byteLen t + 1) 0))).y_size
      = byteLen t + 1 := by
    rw [iterN_y_size (fun k a => a.set 0 (k + 1) (k + 1)) (fun _ _ => rfl), hM1y]
  have hM0l : (iterN (fun k a => a.set 0 (k + 1) (k + 1)) (byteLen t)
      (iterN (fun k a => a.set (k + 1) 0 (k + 1)) (byteLen s)
        (N2Array.new (byteLen s + 1) (byteLen t + 1) 0))).buf.length
      = (byteLen s + 1) * (byteLen t + 1) := by
    rw [iterN_buf_length (fun k a => a.set 0 (k + 1) (k + 1))
      (fun _ _ => by simp [N2Array.length_buf_set]), hM1l]
  have hM0get : ∀ a b, b ≤ byteLen t →
      (iterN (fun k a => a.set 0 (k + 1) (k + 1)) (byteLen t)
        (iterN (fun k a => a.set (k + 1) 0 (k + 1)) (byteLen s)
          (N2Array.new (byteLen s + 1) (byteLen t + 1) 0))).get a b
      = if b = 0 ∧ 1 ≤ a ∧ a ≤ byteLen s then a
        else if a = 0 ∧ 1 ≤ b then b else 0 := by
    intro a b hb
    rw [levInit2_get (byteLen s) (byteLen t) (byteLen t) _ (Nat.le_refl _)
      hM1y hM1l a b hb]
    rw [levInit1_get (byteLen s) (byteLen t) (byteLen s) _ (Nat.le_refl _)
      (N2Array.y_size_new _ _ _) (N2Array.length_buf_new _ _ _) a b hb]
    rw [N2Array.get_new]
    split_ifs <;> omega
  have hcol0 : ∀ i, i ≤ byteLen s →
      (iterN (fun k a => a.set 0 (k + 1) (k + 1)) (byteLen t)
        (iterN (fun k a => a.set (k + 1) 0 (k + 1)) (byteLen s)
          (N2Array.new (byteLen s + 1) (byteLen t + 1) 0))).get i 0 = i := by
    intro i hi
    rw [hM0get i 0 (by omega)]
    split_ifs <;> omega
  have hrow0 : ∀ j, j ≤ byteLen t →
      (iterN (fun k a => a.set 0 (k + 1) (k + 1)) (byteLen t)
        (iterN (fun k a => a.set (k + 1) 0 (k + 1)) (byteLen s)
          (N2Array.new (byteLen s + 1) (byteLen t + 1) 0))).get 0 j = j := by
    intro j hj
    rw [hM0get 0 j hj]
    split_ifs <;> omega
  rw [levFill_get s t s 0 _ rfl (by omega) hM0y hM0l hcol0 hrow0
    (fun i j hi1 hi2 hj1 hj2 => absurd hi1 (by omega)) (byteLen s) (byteLen t)
    (Nat.le_refl _)]
  by_cases hse : s = []
  · subst hse
    rw [if_pos rfl, if_neg (by simp only [byteLen_nil]; omega)]
    simp only [byteLen_nil] at hM0get ⊢
    rw [hM0get 0 (byteLen t) (Nat.le_refl _)]
    split_ifs <;> omega
  · by_cases hte : t = []
    · subst hte
      rw [if_neg hse, if_pos rfl, if_neg (by simp only [byteLen_nil]; omega)]
      have hs1 : 1 ≤ byteLen s :=
        Nat.one_le_iff_ne_zero.mpr (fun h => hse ((byteLen_eq_zero_iff s).mp h))
      simp only [byteLen_nil] at hM0get ⊢
      rw [hM0get (byteLen s) 0 (Nat.le_refl _)]
      split_ifs <;> omega
    · have hs1 : 1 ≤ byteLen s :=
        Nat.one_le_iff_ne_zero.mpr (fun h => hse ((byteLen_eq_zero_iff s).mp h))
      have ht1 : 1 ≤ byteLen t :=
        Nat.one_le_iff_ne_zero.mpr (fun h => hte ((byteLen_eq_zero_iff t).mp h))
      rw [if_neg hse, if_neg hte]
      by_cases hpure : byteLen s = s.length ∧ byteLen t = t.length
      · rw [if_pos (show 0 + 1 ≤ byteLen s ∧ byteLen s ≤ 0 + s.length
          ∧ 1 ≤ byteLen t ∧ byteLen t ≤ t.length from
          ⟨by omega, by omega, by omega, by omega⟩), if_pos hpure]
        rw [levCell, hpure.1, hpure.2, List.take_length, List.take_length]
      · rw [if_neg (show ¬(0 + 1 ≤ byteLen s ∧ byteLen s ≤ 0 + s.length
          ∧ 1 ≤ byteLen t ∧ byteLen t ≤ t.length) from by
            intro hC
            exact hpure ⟨by omega, by omega⟩), if_neg hpure]
        rw [hM0get (byteLen s) (byteLen t) (Nat.le_refl _)]
        split_ifs <;> omega

theorem coordLt2 {a b n m : Nat} (ha : a ≤ n + 1) (hb : b ≤ m + 1) :
    a * (m + 2) + b < (n + 2) * (m + 2) := by
  have h1 : (a + 1) * (m + 2) = a * (m + 2) + (m + 2) := by ring
  have h2 : (a + 1) * (m + 2) ≤ (n + 2) * (m + 2) :=
    Nat.mul_le_mul_right _ (by omega)
  omega

theorem lastIdx1_succ (l : List Char) (c : Char) (k : Nat) :
    lastIdx1 l c (k + 1)
      = if l.get? k = some c then k + 1 else lastIdx1 l c k := rfl

theorem damInit1_get (n m inf : Nat) :
    ∀ k mat, k ≤ n + 1 → mat.y_size = m + 2 →
      mat.buf.length = (n + 2) * (m + 2) →
      ∀ a b, b ≤ m + 1 →
        (iterN (fun i a => (a.set (i + 1) 0 inf).set (i + 1) 1 i) k mat).get a b
          = if b = 0 ∧ 1 ≤ a ∧ a ≤ k then inf
            else if b = 1 ∧ 1 ≤ a ∧ a ≤ k then a - 1
            else mat.get a b := by
  intro k
  induction k with
  | zero =>
    intro mat _ _ _ a b _
    rw [iterN, if_neg (by omega), if_neg (by omega)]
  | succ k ih =>
    intro mat hk hy hl a b hb
    rw [iterN]
    have hy' := iterN_y_size (fun i a => (a.set (i + 1) 0 inf).set (i + 1) 1 i)
      (fun _ _ => rfl) k mat
    have hl' := iterN_buf_length
      (fun i a => (a.set (i + 1) 0 inf).set (i + 1) 1 i)
      (fun _ _ => by simp [N2Array.length_buf_set]) k mat
    have hyI : ((iterN (fun i a => (a.set (i + 1) 0 inf).set (i + 1) 1 i) k
        mat).set (k + 1) 0 inf).y_size = m + 2 := by
      rw [N2Array.y_size_set, hy', hy]
    have hlI : ((iterN (fun i a => (a.set (i + 1) 0 inf).set (i + 1) 1 i) k
        mat).set (k + 1) 0 inf).buf.length = (n + 2) * (m + 2) := by
      rw [N2Array.length_buf_set, hl', hl]
    by_cases h1 : a = k + 1 ∧ b = 1
    · rcases h1 with ⟨rfl, rfl⟩
      rw [N2Array.get_set_self _ _ _ _
        (by rw [hlI, hyI]; exact coordLt2 (by omega) (by omega))]
      rw [if_neg (by omega), if_pos (by omega)]
      omega
    · rw [N2Array.get_set_ne _ _ (by rw [hyI]; omega) (by rw [hyI]; omega)
        (by omega)]
      by_cases h0 : a = k + 1 ∧ b = 0
      · rcases h0 with ⟨rfl, rfl⟩
        rw [N2Array.get_set_self _ _ _ _
          (by rw [hl', hl, hy', hy]; exact coordLt2 (by omega) (by omega))]
        rw [if_pos (by omega)]
      · rw [N2Array.get_set_ne _ _ (by rw [hy', hy]; omega)
          (by rw [hy', hy]; omega) (by omega)]
        rw [ih mat (by omega) hy hl a b hb]
        split_ifs <;> first | rfl | omega

theorem damInit2_get (n m inf : Nat) :
    ∀ k mat, k ≤ m + 1 → mat.y_size = m + 2 →
      mat.buf.length = (n + 2) * (m + 2) →
      ∀ a b, b ≤ m + 1 →
        (iterN (fun j a => (a.set 0 (j + 1) inf).set 1 (j + 1) j) k mat).get a b
          = if a = 0 ∧ 1 ≤ b ∧ b ≤ k then inf
            else if a = 1 ∧ 1 ≤ b ∧ b ≤ k then b - 1
            else mat.get a b := by
  intro k
  induction k with
  | zero =>
    intro mat _ _ _ a b _
    rw [iterN, if_neg (by omega), if_neg (by omega)]
  | succ k ih =>
    intro mat hk hy hl a b hb
    rw [iterN]
    have hy' := iterN_y_size (fun j a => (a.set 0 (j + 1) inf).set 1 (j + 1) j)
      (fun _ _ => rfl) k mat
    have hl' := iterN_buf_length
      (fun j a => (a.set 0 (j + 1) inf).set 1 (j + 1) j)
      (fun _ _ => by simp [N2Array.length_buf_set]) k mat
    have hyI : ((iterN (fun j a => (a.set 0 (j + 1) inf).set 1 (j + 1) j) k
        mat).set 0 (k + 1) inf).y_size = m + 2 := by
      rw [N2Array.y_size_set, hy', hy]
    have hlI : ((iterN (fun j a => (a.set 0 (j + 1) inf).set 1 (j + 1) j) k
        mat).set 0 (k + 1) inf).buf.length = (n + 2) * (m + 2) := by
      rw [N2Array.length_buf_set, hl', hl]
    by_cases h1 : a = 1 ∧ b = k + 1
    · rcases h1 with ⟨rfl, rfl⟩
      rw [N2Array.get_set_self _ _ _ _
        (by rw [hlI, hyI]; exact coordLt2 (by omega) (by omega))]
      rw [if_neg (by omega), if_pos (by omega)]
      omega
    · rw [N2Array.get_set_ne _ _ (by rw [hyI]; omega) (by rw [hyI]; omega)
        (by omega)]
      by_cases h0 : a = 0 ∧ b = k + 1
      · rcases h0 with ⟨rfl, rfl⟩
        rw [N2Array.get_set_self _ _ _ _
          (by rw [hl', hl, hy', hy]; exact coordLt2 (by omega) (by omega))]
        rw [if_pos (by omega)]
      · rw [N2Array.get_set_ne _ _ (by rw [hy', hy]; omega)
          (by rw [hy', hy]; omega) (by omega)]
        rw [ih mat (by omega) hy hl a b hb]
        split_ifs <;> first | rfl | omega

theorem damFillCols_y_size (t : List Char) (char_s : Char) (row : Nat)
    (last_row : Char → Nat) :
    ∀ rest colIdx lmc mat,
      (damFillCols t char_s row last_row rest colIdx lmc mat).y_size
        = mat.y_size := by
  intro rest
  induction rest with
  | nil => intro colIdx lmc mat; rfl
  | cons c rest ih =>
    intro colIdx lmc mat
    simp only [damFillCols]
    rw [ih]
    rfl

theorem damFillCols_buf_length (t : List Char) (char_s : Char) (row : Nat)
    (last_row : Char → Nat) :
    ∀ rest colIdx lmc mat,
      (damFillCols t char_s row last_row rest colIdx lmc mat).buf.length
        = mat.buf.length := by
  intro rest
  induction rest with
  | nil => intro colIdx lmc mat; rfl
  | cons c rest ih =>
    intro colIdx lmc mat
    simp only [damFillCols]
    rw [ih]
    simp [N2Array.length_buf_set]

theorem damFillRows_y_size (t : List Char) :
    ∀ rest rowIdx last_row mat,
      (damFillRows t rest rowIdx last_row mat).y_size = mat.y_size := by
  intro rest
  induction rest with
  | nil => intro rowIdx last_row mat; rfl
  | cons c rest ih =>
    intro rowIdx last_row mat
    simp only [damFillRows]
    rw [ih, damFillCols_y_size]

theorem damFillRows_buf_length (t : List Char) :
    ∀ rest rowIdx last_row mat,
      (damFillRows t rest rowIdx last_row mat).buf.length = mat.buf.length := by
  intro rest
  induction rest with
  | nil => intro rowIdx last_row mat; rfl
  | cons c rest ih =>
    intro rowIdx last_row mat
    simp only [damFillRows]
    rw [ih, damFillCols_buf_length]

theorem damFillCols_get (s t : List Char) (inf : Nat) (char_s : Char)
    (rowIdx : Nat) (hrow : rowIdx < s.length)
    (hchar : s.getD rowIdx 'A' = char_s)
    (last_row : Char → Nat)
    (hmap : ∀ c, last_row c = lastIdx1 s c rowIdx) :
    ∀ rest colIdx lmc mat,
      t.drop colIdx = rest →
      lmc = lastIdx1 t char_s colIdx →
      mat.y_size = byteLen t + 2 →
      mat.buf.length = (byteLen s + 2) * (byteLen t + 2) →
      (∀ b, b ≤ byteLen t + 1 → mat.get 0 b = inf) →
      (∀ a, a ≤ byteLen s + 1 → mat.get a 0 = inf) →
      (∀ a, 1 ≤ a → a ≤ byteLen s + 1 → mat.get a 1 = a - 1) →
      (∀ b, 1 ≤ b → b ≤ byteLen t + 1 → mat.get 1 b = b - 1) →
      (∀ r c, 1 ≤ r → r ≤ rowIdx → 1 ≤ c → c ≤ t.length →
        mat.get (r + 1) (c + 1) = Ddam inf s t r c) →
      (∀ c, 1 ≤ c → c ≤ colIdx →
        mat.get (rowIdx + 1 + 1) (c + 1) = Ddam inf s t (rowIdx + 1) c) →
      ∀ a b, b ≤ byteLen t + 1 →
        (damFillCols t char_s (rowIdx + 1) last_row rest colIdx lmc mat).get a b
          = if a = rowIdx + 1 + 1 ∧ colIdx + 2 ≤ b ∧ b ≤ colIdx + 1 + rest.length
            then Ddam inf s t (rowIdx + 1) (b - 1)
            else mat.get a b := by
  intro rest
  induction rest with
  | nil =>
    intro colIdx lmc mat _ _ _ _ _ _ _ _ _ _ a b _
    simp only [damFillCols, List.length_nil]
    rw [if_neg (by omega)]
  | cons char_t rest ih =>
    intro colIdx lmc mat hdrop hlmc hy hl hinfRow hinfCol hcol1 hrow1 hreg
      hpart a b hb
    have hns := length_le_byteLen s
    have hmt := length_le_byteLen t
    have hColLt : colIdx < t.length := by
      have := congrArg List.length hdrop
      simp [List.length_drop] at this
      omega
    have hcons := List.drop_eq_getElem_cons (l := t) (n := colIdx) hColLt
    rw [hdrop, List.cons.injEq] at hcons
    have hdrop' : t.drop (colIdx + 1) = rest := hcons.2.symm
    have hchar_t : t.getD colIdx 'A' = char_t := by
      simp [List.getD_eq_getElem?_getD, List.getElem?_eq_getElem hColLt,
        hcons.1.symm]
    have hgetq : t.get? colIdx = some char_t := by
      rw [List.get?_eq_getElem?, List.getElem?_eq_getElem hColLt, hcons.1.symm]
    have hlmr_le := lastIdx1_le s char_t rowIdx
    have hlmc_le := lastIdx1_le t char_s colIdx
    have hA : ∀ r c, r ≤ rowIdx → c ≤ t.length →
        mat.get (r + 1) (c + 1) = Ddam inf s t r c := by
      intro r c hr hc
      rcases Nat.eq_zero_or_pos r with rfl | hrpos
      · rcases Nat.eq_zero_or_pos c with rfl | hcpos
        · rw [hcol1 1 (by omega) (by omega), Ddam_zero_right]
        · rw [hrow1 (c + 1) (by omega) (by omega), Ddam_zero_left]
          omega
      · rcases Nat.eq_zero_or_pos c with rfl | hcpos
        · rw [hcol1 (r + 1) (by omega) (by omega), Ddam_zero_right]
          omega
        · exact hreg r c hrpos hr hcpos hc
    have hA2 : ∀ c, c ≤ colIdx →
        mat.get (rowIdx + 1 + 1) (c + 1) = Ddam inf s t (rowIdx + 1) c := by
      intro c hc
      rcases Nat.eq_zero_or_pos c with rfl | hcpos
      · rw [hcol1 (rowIdx + 1 + 1) (by omega) (by omega), Ddam_zero_right]
        omega
      · exact hpart c hcpos hc
    have htrans : mat.get (lastIdx1 s char_t rowIdx) (lastIdx1 t char_s colIdx)
        = (if lastIdx1 s char_t rowIdx = 0 ∨ lastIdx1 t char_s colIdx = 0
           then inf
           else Ddam inf s t (lastIdx1 s char_t rowIdx - 1)
             (lastIdx1 t char_s colIdx - 1)) := by
      by_cases hz : lastIdx1 s char_t rowIdx = 0 ∨ lastIdx1 t char_s colIdx = 0
      · rw [if_pos hz]
        rcases hz with hz | hz
        · rw [hz]
          exact hinfRow _ (by omega)
        · rw [hz]
          exact hinfCol _ (by omega)
      · rw [if_neg hz]
        have hz' := not_or.mp hz
        obtain ⟨r', hr'⟩ : ∃ r', lastIdx1 s char_t rowIdx = r' + 1 :=
          ⟨lastIdx1 s char_t rowIdx - 1, by omega⟩
        obtain ⟨c', hc'⟩ : ∃ c', lastIdx1 t char_s colIdx = c' + 1 :=
          ⟨lastIdx1 t char_s colIdx - 1, by omega⟩
        rw [hr', hc', hA r' c' (by omega) (by omega)]
        simp only [Nat.add_sub_cancel]
    have hv : min (min (mat.get (rowIdx + 1) (colIdx + 1 + 1) + 1)
          (mat.get (rowIdx + 1 + 1) (colIdx + 1) + 1))
        (min (mat.get (rowIdx + 1) (colIdx + 1)
            + (if char_s = char_t then 0 else 1))
          (mat.get (last_row char_t) lmc
            + (rowIdx + 1 - last_row char_t - 1) + 1
            + (colIdx + 1 - lmc - 1)))
        = Ddam inf s t (rowIdx + 1) (colIdx + 1) := by
      rw [Ddam_succ_succ inf s t rowIdx colIdx, hchar, hchar_t, hmap char_t,
        hlmc, htrans, hA rowIdx (colIdx + 1) (Nat.le_refl _) (by omega),
        hA2 colIdx (Nat.le_refl _), hA rowIdx colIdx (Nat.le_refl _) (by omega)]
    have hcost_lmc : (if (if char_s = char_t then (0 : Nat) else 1) = 0
          then colIdx + 1 else lmc)
        = lastIdx1 t char_s (colIdx + 1) := by
      rw [lastIdx1_succ, hgetq]
      by_cases hc : char_s = char_t
      · have hcost0 : (if char_s = char_t then (0 : Nat) else 1) = 0 := by
          rw [if_pos hc]
        rw [if_pos hcost0, if_pos (show some char_t = some char_s from by
          rw [hc])]
      · have hcost1 : ¬(if char_s = char_t then (0 : Nat) else 1) = 0 := by
          rw [if_neg hc]; omega
        rw [if_neg hcost1, if_neg (show ¬some char_t = some char_s from
          fun hEq => hc (Option.some.inj hEq).symm)]
        exact hlmc
    simp only [damFillCols]
    rw [hv, hcost_lmc]
    have hsetY : (mat.set (rowIdx + 1 + 1) (colIdx + 1 + 1)
        (Ddam inf s t (rowIdx + 1) (colIdx + 1))).y_size
        = byteLen t + 2 := by rw [N2Array.y_size_set, hy]
    have hsetL : (mat.set (rowIdx + 1 + 1) (colIdx + 1 + 1)
        (Ddam inf s t (rowIdx + 1) (colIdx + 1))).buf.length
        = (byteLen s + 2) * (byteLen t + 2) := by rw [N2Array.length_buf_set, hl]
    rw [ih (colIdx + 1) _ _ hdrop' rfl hsetY hsetL
      (fun b' hb' => by
        rw [N2Array.get_set_ne _ _ (by rw [hy]; omega) (by rw [hy]; omega)
          (by omega)]
        exact hinfRow b' hb')
      (fun a' ha' => by
        rw [N2Array.get_set_ne _ _ (by rw [hy]; omega) (by rw [hy]; omega)
          (by omega)]
        exact hinfCol a' ha')
      (fun a' ha1 ha2 => by
        rw [N2Array.get_set_ne _ _ (by rw [hy]; omega) (by rw [hy]; omega)
          (by omega)]
        exact hcol1 a' ha1 ha2)
      (fun b' hb1 hb2 => by
        rw [N2Array.get_set_ne _ _ (by rw [hy]; omega) (by rw [hy]; omega)
          (by omega)]
        exact hrow1 b' hb1 hb2)
      (fun r c hr1 hr2 hc1 hc2 => by
        rw [N2Array.get_set_ne _ _ (by rw [hy]; omega) (by rw [hy]; omega)
          (by omega)]
        exact hreg r c hr1 hr2 hc1 hc2)
      (fun c hc1 hc2 => by
        rcases Nat.lt_or_ge c (colIdx + 1) with hlt | hge
        · rw [N2Array.get_set_ne _ _ (by rw [hy]; omega) (by rw [hy]; omega)
            (by omega)]
          exact hpart c hc1 (by omega)
        · have hceq : c = colIdx + 1 := by omega
          subst hceq
          rw [N2Array.get_set_self _ _ _ _
            (by rw [hl, hy]; exact coordLt2 (by omega) (by omega))])
      a b hb]
    have hset_get : (mat.set (rowIdx + 1 + 1) (colIdx + 1 + 1)
          (Ddam inf s t (rowIdx + 1) (colIdx + 1))).get a b
        = if a = rowIdx + 1 + 1 ∧ b = colIdx + 1 + 1
          then Ddam inf s t (rowIdx + 1) (colIdx + 1)
          else mat.get a b := by
      by_cases hcase : a = rowIdx + 1 + 1 ∧ b = colIdx + 1 + 1
      · rcases hcase with ⟨rfl, rfl⟩
        rw [if_pos ⟨rfl, rfl⟩]
        exact N2Array.get_set_self _ _ _ _
          (by rw [hl, hy]; exact coordLt2 (by omega) (by omega))
      · rw [if_neg hcase]
        exact N2Array.get_set_ne _ _ (by rw [hy]; omega) (by rw [hy]; omega)
          (by omega)
    rw [hset_get]
    by_cases h1 : a = rowIdx + 1 + 1 ∧ colIdx + 1 + 2 ≤ b
        ∧ b ≤ colIdx + 1 + 1 + rest.length
    · rw [if_pos h1, if_pos (show a = rowIdx + 1 + 1 ∧ colIdx + 2 ≤ b
        ∧ b ≤ colIdx + 1 + (char_t :: rest).length from
        ⟨h1.1, by omega, by simp only [List.length_cons]; omega⟩)]
    · rw [if_neg h1]
      by_cases h3 : a = rowIdx + 1 + 1 ∧ b = colIdx + 1 + 1
      · rcases h3 with ⟨rfl, rfl⟩
        rw [if_pos (show rowIdx + 1 + 1 = rowIdx + 1 + 1
            ∧ colIdx + 1 + 1 = colIdx + 1 + 1 from ⟨rfl, rfl⟩)]
        rw [if_pos (show rowIdx + 1 + 1 = rowIdx + 1 + 1
          ∧ colIdx + 2 ≤ colIdx + 1 + 1
          ∧ colIdx + 1 + 1 ≤ colIdx + 1 + (char_t :: rest).length from
          ⟨rfl, by omega, by simp only [List.length_cons]; omega⟩)]
        simp only [Nat.add_sub_cancel]
      · rw [if_neg h3, if_neg (show ¬(a = rowIdx + 1 + 1 ∧ colIdx + 2 ≤ b
          ∧ b ≤ colIdx + 1 + (char_t :: rest).length) from by
            simp only [List.length_cons]
            intro hC
            rcases hC with ⟨hC1, hC2, hC3⟩
            rcases Nat.eq_or_lt_of_le hC2 with heq | hlt
            · exact h3 ⟨hC1, by omega⟩
            · exact h1 ⟨hC1, by omega, by omega⟩)]

theorem damFillRows_get (s t : List Char) (inf : Nat) :
    ∀ rest rowIdx last_row mat,
      s.drop rowIdx = rest →
      (∀ c, last_row c = lastIdx1 s c rowIdx) →
      mat.y_size = byteLen t + 2 →
      mat.buf.length = (byteLen s + 2) * (byteLen t + 2) →
      (∀ b, b ≤ byteLen t + 1 → mat.get 0 b = inf) →
      (∀ a, a ≤ byteLen s + 1 → mat.get a 0 = inf) →
      (∀ a, 1 ≤ a → a ≤ byteLen s + 1 → mat.get a 1 = a - 1) →
      (∀ b, 1 ≤ b → b ≤ byteLen t + 1 → mat.get 1 b = b - 1) →
      (∀ r c, 1 ≤ r → r ≤ rowIdx → 1 ≤ c → c ≤ t.length →
        mat.get (r + 1) (c + 1) = Ddam inf s t r c) →
      ∀ a b, b ≤ byteLen t + 1 →
        (damFillRows t rest rowIdx last_row mat).get a b =
          if rowIdx + 2 ≤ a ∧ a ≤ rowIdx + 1 + rest.length
            ∧ 2 ≤ b ∧ b ≤ t.length + 1
          then Ddam inf s t (a - 1) (b - 1)
          else mat.get a b := by
  intro rest
  induction rest with
  | nil =>
    intro rowIdx last_row mat _ _ _ _ _ _ _ _ _ a b _
    simp only [damFillRows, List.length_nil]
    rw [if_neg (by omega)]
  | cons char_s rest ih =>
    intro rowIdx last_row mat hdrop hmap hy hl hinfRow hinfCol hcol1 hrow1
      hreg a b hb
    have hns := length_le_byteLen s
    have hmt := length_le_byteLen t
    have hRowLt : rowIdx < s.length := by
      have := congrArg List.length hdrop
      simp [List.length_drop] at this
      omega
    have hcons := List.drop_eq_getElem_cons (l := s) (n := rowIdx) hRowLt
    rw [hdrop, List.cons.injEq] at hcons
    have hdrop' : s.drop (rowIdx + 1) = rest := hcons.2.symm
    have hchar : s.getD rowIdx 'A' = char_s := by
      simp [List.getD_eq_getElem?_getD, List.getElem?_eq_getElem hRowLt,
        hcons.1.symm]
    have hgetqs : s.get? rowIdx = some char_s := by
      rw [List.get?_eq_getElem?, List.getElem?_eq_getElem hRowLt, hcons.1.symm]
    have hInner := damFillCols_get s t inf char_s rowIdx hRowLt hchar last_row
      hmap t 0 0 mat rfl rfl hy hl hinfRow hinfCol hcol1 hrow1 hreg
      (fun c hc1 hc2 => absurd hc1 (by omega))
    have hmap' : ∀ c, (fun c => if c = char_s then rowIdx + 1 else last_row c) c
        = lastIdx1 s c (rowIdx + 1) := by
      intro c
      simp only
      rw [lastIdx1_succ, hgetqs]
      by_cases hc : c = char_s
      · rw [if_pos hc, if_pos (show some char_s = some c from by rw [hc])]
      · rw [if_neg hc, if_neg (show ¬some char_s = some c from
          fun hEq => hc (Option.some.inj hEq).symm)]
        exact hmap c
    have hy' : (damFillCols t char_s (rowIdx + 1) last_row t 0 0 mat).y_size
        = byteLen t + 2 := by rw [damFillCols_y_size, hy]
    have hl' : (damFillCols t char_s (rowIdx + 1) last_row t 0 0 mat).buf.length
        = (byteLen s + 2) * (byteLen t + 2) := by
      rw [damFillCols_buf_length, hl]
    simp only [damFillRows]
    rw [ih (rowIdx + 1) _ _ hdrop' hmap' hy' hl'
      (fun b' hb' => by
        rw [hInner 0 b' hb', if_neg (by omega)]
        exact hinfRow b' hb')
      (fun a' ha' => by
        rw [hInner a' 0 (by omega), if_neg (by omega)]
        exact hinfCol a' ha')
      (fun a' ha1 ha2 => by
        rw [hInner a' 1 (by omega), if_neg (by omega)]
        exact hcol1 a' ha1 ha2)
      (fun b' hb1 hb2 => by
        rw [hInner 1 b' hb2, if_neg (by omega)]
        exact hrow1 b' hb1 hb2)
      (fun r c hr1 hr2 hc1 hc2 => by
        rw [hInner (r + 1) (c + 1) (by omega)]
        by_cases hcase : r = rowIdx + 1
        · rw [if_pos (show r + 1 = rowIdx + 1 + 1 ∧ 0 + 2 ≤ c + 1
            ∧ c + 1 ≤ 0 + 1 + t.length from ⟨by omega, by omega, by omega⟩)]
          rw [hcase]
          simp only [Nat.add_sub_cancel]
        · rw [if_neg (fun hc' => hcase (by omega))]
          exact hreg r c hr1 (by omega) hc1 hc2)
      a b hb]
    by_cases hA' : rowIdx + 1 + 2 ≤ a ∧ a ≤ rowIdx + 1 + 1 + rest.length
        ∧ 2 ≤ b ∧ b ≤ t.length + 1
    · rw [if_pos hA', if_pos (show rowIdx + 2 ≤ a
        ∧ a ≤ rowIdx + 1 + (char_s :: rest).length ∧ 2 ≤ b ∧ b ≤ t.length + 1
        from ⟨by omega, by simp only [List.length_cons]; omega,
          hA'.2.2.1, hA'.2.2.2⟩)]
    · rw [if_neg hA', hInner a b hb]
      by_cases hB' : a = rowIdx + 1 + 1 ∧ 0 + 2 ≤ b ∧ b ≤ 0 + 1 + t.length
      · rcases hB' with ⟨rfl, hb2, hb3⟩
        rw [if_pos (show rowIdx + 1 + 1 = rowIdx + 1 + 1 ∧ 0 + 2 ≤ b
            ∧ b ≤ 0 + 1 + t.length from ⟨rfl, hb2, hb3⟩)]
        rw [if_pos (show rowIdx + 2 ≤ rowIdx + 1 + 1
          ∧ rowIdx + 1 + 1 ≤ rowIdx + 1 + (char_s :: rest).length
          ∧ 2 ≤ b ∧ b ≤ t.length + 1 from
          ⟨by omega, by simp only [List.length_cons]; omega, by omega,
            by omega⟩)]
        simp only [Nat.add_sub_cancel]
      · rw [if_neg hB', if_neg (show ¬(rowIdx + 2 ≤ a
          ∧ a ≤ rowIdx + 1 + (char_s :: rest).length ∧ 2 ≤ b
          ∧ b ≤ t.length + 1) from by
            simp only [List.length_cons]
            intro hC
            rcases hC with ⟨hC1, hC2, hC3, hC4⟩
            rcases Nat.eq_or_lt_of_le hC1 with heq | hlt
            · exact hB' ⟨by omega, by omega, by omega⟩
            · exact hA' ⟨by omega, by omega, hC3, hC4⟩)]

theorem damInit_get (s t : List Char) (inf : Nat) :
    ∀ a b, a ≤ byteLen s + 1 → b ≤ byteLen t + 1 →
      (iterN (fun j a => (a.set 0 (j + 1) inf).set 1 (j + 1) j) (byteLen t + 1)
        (iterN (fun i a => (a.set (i + 1) 0 inf).set (i + 1) 1 i)
          (byteLen s + 1)
          ((N2Array.new (byteLen s + 2) (byteLen t + 2) 0).set 0 0 inf))).get
          a b
      = if a = 0 then inf else if b = 0 then inf
        else if a = 1 then b - 1 else if b = 1 then a - 1 else 0 := by
  intro a b ha hb
  have hyB : ((N2Array.new (byteLen s + 2) (byteLen t + 2) 0).set 0 0
      inf).y_size = byteLen t + 2 := rfl
  have hlB : ((N2Array.new (byteLen s + 2) (byteLen t + 2) 0).set 0 0
      inf).buf.length = (byteLen s + 2) * (byteLen t + 2) := by
    rw [N2Array.length_buf_set, N2Array.length_buf_new]
  have hy1 : (iterN (fun i a => (a.set (i + 1) 0 inf).set (i + 1) 1 i)
      (byteLen s + 1)
      ((N2Array.new (byteLen s + 2) (byteLen t + 2) 0).set 0 0 inf)).y_size
      = byteLen t + 2 := by
    rw [iterN_y_size (fun i a => (a.set (i + 1) 0 inf).set (i + 1) 1 i)
      (fun _ _ => rfl), hyB]
  have hl1 : (iterN (fun i a => (a.set (i + 1) 0 inf).set (i + 1) 1 i)
      (byteLen s + 1)
      ((N2Array.new (byteLen s + 2) (byteLen t + 2) 0).set 0 0
        inf)).buf.length = (byteLen s + 2) * (byteLen t + 2) := by
    rw [iterN_buf_length (fun i a => (a.set (i + 1) 0 inf).set (i + 1) 1 i)
      (fun _ _ => by simp [N2Array.length_buf_set]), hlB]
  rw [damInit2_get (byteLen s) (byteLen t) inf (byteLen t + 1) _
    (Nat.le_refl _) hy1 hl1 a b hb]
  rw [damInit1_get (byteLen s) (byteLen t) inf (byteLen s + 1) _
    (Nat.le_refl _) hyB hlB a b hb]
  have hbase : ((N2Array.new (byteLen s + 2) (byteLen t + 2) 0).set 0 0
      inf).get a b = if a = 0 ∧ b = 0 then inf else 0 := by
    by_cases hab : a = 0 ∧ b = 0
    · rcases hab with ⟨rfl, rfl⟩
      rw [if_pos ⟨rfl, rfl⟩]
      exact N2Array.get_set_self _ _ _ _
        (by rw [N2Array.length_buf_new, N2Array.y_size_new]
            exact coordLt2 (by omega) (by omega))
    · rw [if_neg hab]
      rw [N2Array.get_set_ne _ _ (by rw [N2Array.y_size_new]; omega)
        (by rw [N2Array.y_size_new]; omega) (by omega)]
      rw [N2Array.get_new]
      split_ifs <;> rfl
  rw [hbase]
  split_ifs <;> omega

/-- Closed form of the Damerau-Levenshtein implementation.  As with
`levenshtein`, the grid and the result cell are sized/addressed with byte
lengths while the fill loops run over characters: the Damerau dynamic
program value is returned only for strings of single-byte characters, the
fast paths return the byte length of the non-empty side (or 0 for equal
strings), and any other input yields the untouched cell value 0. -/
theorem dam_eq (s t : List Char) :
    damerau_levenshtein s t =
      if s = [] then byteLen t
      else if t = [] then byteLen s
      else if s = t then 0
      else if byteLen s = s.length ∧ byteLen t = t.length
      then Ddam (byteLen s + byteLen t) s t s.length t.length
      else 0 := by
  have hns := length_le_byteLen s
  have hmt := length_le_byteLen t
  simp only [damerau_levenshtein]
  by_cases hse : s = []
  · subst hse
    rw [if_pos byteLen_nil, if_pos rfl]
  · have hs0 : ¬byteLen s = 0 := fun h => hse ((byteLen_eq_zero_iff s).mp h)
    rw [if_neg hs0, if_neg hse]
    by_cases hte : t = []
    · subst hte
      rw [if_pos byteLen_nil, if_pos rfl]
    · have ht0 : ¬byteLen t = 0 := fun h => hte ((byteLen_eq_zero_iff t).mp h)
      rw [if_neg ht0, if_neg hte]
      by_cases hst : s = t
      · rw [if_pos ⟨by rw [hst], hst⟩, if_pos hst]
      · rw [if_neg (fun hc => hst hc.2), if_neg hst]
        have hInit := damInit_get s t (byteLen s + byteLen t)
        have hy0 : (iterN (fun j a =>
            (a.set 0 (j + 1) (byteLen s + byteLen t)).set 1 (j + 1) j)
            (byteLen t + 1)
            (iterN (fun i a =>
              (a.set (i + 1) 0 (byteLen s + byteLen t)).set (i + 1) 1 i)
              (byteLen s + 1)
              ((N2Array.new (byteLen s + 2) (byteLen t + 2) 0).set 0 0
                (byteLen s + byteLen t)))).y_size = byteLen t + 2 := by
          rw [iterN_y_size (fun j a =>
            (a.set 0 (j + 1) (byteLen s + byteLen t)).set 1 (j + 1) j)
            (fun _ _ => rfl)]
          rw [iterN_y_size (fun i a =>
            (a.set (i + 1) 0 (byteLen s + byteLen t)).set (i + 1) 1 i)
            (fun _ _ => rfl)]
          rfl
        have hl0 : (iterN (fun j a =>
            (a.set 0 (j + 1) (byteLen s + byteLen t)).set 1 (j + 1) j)
            (byteLen t + 1)
            (iterN (fun i a =>
              (a.set (i + 1) 0 (byteLen s + byteLen t)).set (i + 1) 1 i)
              (byteLen s + 1)
              ((N2Array.new (byteLen s + 2) (byteLen t + 2) 0).set 0 0
                (byteLen s + byteLen t)))).buf.length = (byteLen s + 2) * (byteLen t + 2) := by
          rw [iterN_buf_length (fun j a =>
            (a.set 0 (j + 1) (byteLen s + byteLen t)).set 1 (j + 1) j)
            (fun _ _ => by simp [N2Array.length_buf_set])]
          rw [iterN_buf_length (fun i a =>
            (a.set (i + 1) 0 (byteLen s + byteLen t)).set (i + 1) 1 i)
            (fun _ _ => by simp [N2Array.length_buf_set])]
          rw [N2Array.length_buf_set, N2Array.length_buf_new]
        have hbInfRow : ∀ b, b ≤ byteLen t + 1 →
            (iterN (fun j a =>
            (a.set 0 (j + 1) (byteLen s + byteLen t)).set 1 (j + 1) j)
            (byteLen t + 1)
            (iterN (fun i a =>
              (a.set (i + 1) 0 (byteLen s + byteLen t)).set (i + 1) 1 i)
              (byteLen s + 1)
              ((N2Array.new (byteLen s + 2) (byteLen t + 2) 0).set 0 0
                (byteLen s + byteLen t)))).get 0 b = byteLen s + byteLen t := by
          intro b hb
          rw [hInit 0 b (by omega) hb, if_pos rfl]
        have hbInfCol : ∀ a, a ≤ byteLen s + 1 →
            (iterN (fun j a =>
            (a.set 0 (j + 1) (byteLen s + byteLen t)).set 1 (j + 1) j)
            (byteLen t + 1)
            (iterN (fun i a =>
              (a.set (i + 1) 0 (byteLen s + byteLen t)).set (i + 1) 1 i)
              (byteLen s + 1)
              ((N2Array.new (byteLen s + 2) (byteLen t + 2) 0).set 0 0
                (byteLen s + byteLen t)))).get a 0 = byteLen s + byteLen t := by
          intro a ha
          rw [hInit a 0 ha (by omega)]
          split_ifs <;> omega
        have hbCol1 : ∀ a, 1 ≤ a → a ≤ byteLen s + 1 →
            (iterN (fun j a =>
            (a.set 0 (j + 1) (byteLen s + byteLen t)).set 1 (j + 1) j)
            (byteLen t + 1)
            (iterN (fun i a =>
              (a.set (i + 1) 0 (byteLen s + byteLen t)).set (i + 1) 1 i)
              (byteLen s + 1)
              ((N2Array.new (byteLen s + 2) (byteLen t + 2) 0).set 0 0
                (byteLen s + byteLen t)))).get a 1 = a - 1 := by
          intro a ha1 ha2
          rw [hInit a 1 ha2 (by omega)]
          rw [if_neg (show ¬a = 0 from by omega),
            if_neg (show ¬(1 : Nat) = 0 from by omega)]
          by_cases h1 : a = 1
          · rw [if_pos h1, h1]
          · rw [if_neg h1, if_pos rfl]
        have hbRow1 : ∀ b, 1 ≤ b → b ≤ byteLen t + 1 →
            (iterN (fun j a =>
            (a.set 0 (j + 1) (byteLen s + byteLen t)).set 1 (j + 1) j)
            (byteLen t + 1)
            (iterN (fun i a =>
              (a.set (i + 1) 0 (byteLen s + byteLen t)).set (i + 1) 1 i)
              (byteLen s + 1)
              ((N2Array.new (byteLen s + 2) (byteLen t + 2) 0).set 0 0
                (byteLen s + byteLen t)))).get 1 b = b - 1 := by
          intro b hb1 hb2
          rw [hInit 1 b (by omega) hb2]
          rw [if_neg (show ¬(1 : Nat) = 0 from by omega),
            if_neg (show ¬b = 0 from by omega), if_pos rfl]
        rw [damFillRows_get s t (byteLen s + byteLen t) s 0 (fun _ => 0)
          (iterN (fun j a =>
            (a.set 0 (j + 1) (byteLen s + byteLen t)).set 1 (j + 1) j)
            (byteLen t + 1)
            (iterN (fun i a =>
              (a.set (i + 1) 0 (byteLen s + byteLen t)).set (i + 1) 1 i)
              (byteLen s + 1)
              ((N2Array.new (byteLen s + 2) (byteLen t + 2) 0).set 0 0
                (byteLen s + byteLen t)))) rfl (fun c => rfl) hy0 hl0 hbInfRow hbInfCol hbCol1 hbRow1
          (fun r c hr1 hr2 hc1 hc2 => absurd hr2 (by omega))
          (byteLen s + 1) (byteLen t + 1) (Nat.le_refl _)]
        by_cases hpure : byteLen s = s.length ∧ byteLen t = t.length
        · rw [if_pos (show 0 + 2 ≤ byteLen s + 1
            ∧ byteLen s + 1 ≤ 0 + 1 + s.length ∧ 2 ≤ byteLen t + 1
            ∧ byteLen t + 1 ≤ t.length + 1 from
            ⟨by omega, by omega, by omega, by omega⟩), if_pos hpure]
          rw [Nat.add_sub_cancel, Nat.add_sub_cancel, hpure.1, hpure.2]
        · rw [if_neg (show ¬(0 + 2 ≤ byteLen s + 1
            ∧ byteLen s + 1 ≤ 0 + 1 + s.length ∧ 2 ≤ byteLen t + 1
            ∧ byteLen t + 1 ≤ t.length + 1) from
            fun hC => hpure ⟨by omega, by omega⟩), if_neg hpure]
          rw [hInit (byteLen s + 1) (byteLen t + 1) (Nat.le_refl _)
            (Nat.le_refl _)]
          rw [if_neg (show ¬byteLen s + 1 = 0 from by omega),
            if_neg (show ¬byteLen t + 1 = 0 from by omega),
            if_neg (show ¬byteLen s + 1 = 1 from by omega),
            if_neg (show ¬byteLen t + 1 = 1 from by omega)]
theorem lev_symm (s t : List Char) : levenshtein s t = levenshtein t s := by
  rw [lev_eq, lev_eq]
  by_cases hse : s = []
  · subst hse
    by_cases hte : t = []
    · subst hte
      rfl
    · rw [if_pos rfl, if_neg hte, if_pos rfl]
  · by_cases hte : t = []
    · subst hte
      rw [if_neg hse, if_pos rfl, if_pos rfl]
    · rw [if_neg hse, if_neg hte, if_neg hte, if_neg hse]
      by_cases hpure : byteLen s = s.length ∧ byteLen t = t.length
      · rw [if_pos hpure, if_pos ⟨hpure.2, hpure.1⟩]
        exact levRec_symm _ _
      · rw [if_neg hpure, if_neg (fun hc => hpure ⟨hc.2, hc.1⟩)]

theorem dam_symm (s t : List Char) :
    damerau_levenshtein s t = damerau_levenshtein t s := by
  rw [dam_eq, dam_eq]
  by_cases hse : s = []
  · subst hse
    by_cases hte : t = []
    · subst hte
      rfl
    · rw [if_pos rfl, if_neg hte, if_pos rfl]
  · by_cases hte : t = []
    · subst hte
      rw [if_neg hse, if_pos rfl, if_pos rfl]
    · rw [if_neg hse, if_neg hte, if_neg hte, if_neg hse]
      by_cases hst : s = t
      · rw [if_pos hst, if_pos (show t = s from hst.symm)]
      · rw [if_neg hst, if_neg (show ¬t = s from fun h => hst h.symm)]
        by_cases hpure : byteLen s = s.length ∧ byteLen t = t.length
        · rw [if_pos hpure, if_pos ⟨hpure.2, hpure.1⟩]
          rw [Ddam_symm, Nat.add_comm (byteLen s) (byteLen t)]
        · rw [if_neg hpure, if_neg (fun hc => hpure ⟨hc.2, hc.1⟩)]

theorem lev_self (s : List Char) : levenshtein s s = 0 := by
  rw [lev_eq]
  by_cases hse : s = []
  · rw [if_pos hse, hse, byteLen_nil]
  · rw [if_neg hse, if_neg hse]
    by_cases hpure : byteLen s = s.length ∧ byteLen s = s.length
    · rw [if_pos hpure]
      exact levRec_self _
    · rw [if_neg hpure]

theorem dam_self (s : List Char) : damerau_levenshtein s s = 0 := by
  rw [dam_eq]
  by_cases hse : s = []
  · rw [if_pos hse, hse, byteLen_nil]
  · rw [if_neg hse, if_neg hse, if_pos rfl]

theorem dam_le_lev (s t : List Char) :
    damerau_levenshtein s t ≤ levenshtein s t := by
  rw [dam_eq, lev_eq]
  by_cases hse : s = []
  · rw [if_pos hse, if_pos hse]
  · rw [if_neg hse, if_neg hse]
    by_cases hte : t = []
    · rw [if_pos hte, if_pos hte]
    · rw [if_neg hte, if_neg hte]
      by_cases hst : s = t
      · rw [if_pos hst]
        exact Nat.zero_le _
      · rw [if_neg hst]
        by_cases hpure : byteLen s = s.length ∧ byteLen t = t.length
        · rw [if_pos hpure, if_pos hpure]
          exact Ddam_le_levRec _ s t
        · rw [if_neg hpure, if_neg hpure]

/-- C1 (code_bug evidence): on the failing input `source = ""`,
`target = "é"` both functions return the UTF-8 byte length 2 of the target,
not its character length 1 as the specification requires. -/
theorem c1_empty_boundary_byte_length :
    levenshtein [] ['é'] = 2 ∧ damerau_levenshtein [] ['é'] = 2
      ∧ (['é'] : List Char).length = 1 := by
  decide

/-- C2 (code_bug evidence): the triangle inequality fails at
`s = "a"`, `t = "é"`, `u = "b"`: the distances through the multi-byte
middle string collapse to 0 while `levenshtein "a" "b" = 1`. -/
theorem c2_triangle_violation :
    levenshtein ['a'] ['b'] = 1 ∧ levenshtein ['a'] ['é'] = 0
      ∧ levenshtein ['é'] ['b'] = 0
      ∧ ¬levenshtein ['a'] ['b']
          ≤ levenshtein ['a'] ['é'] + levenshtein ['é'] ['b'] := by
  decide

/-- C3 (code_bug evidence): on `s = ""`, `t = "éé"` both functions return
the byte length 4, which exceeds `max n m = 2` for the character lengths
`n = 0`, `m = 2` used by the specification. -/
theorem c3_bound_violation :
    levenshtein [] ['é', 'é'] = 4 ∧ damerau_levenshtein [] ['é', 'é'] = 4
      ∧ max ([] : List Char).length (['é', 'é'] : List Char).length = 2 := by
  decide

/-- C4: both distance functions are symmetric in their two arguments. -/
theorem c4_symmetry (s t : List Char) :
    levenshtein s t = levenshtein t s
      ∧ damerau_levenshtein s t = damerau_levenshtein t s :=
  ⟨lev_symm s t, dam_symm s t⟩

/-- C5: the Damerau-Levenshtein result never exceeds the Levenshtein
result, for all inputs. -/
theorem c5_dam_le_lev (s t : List Char) :
    damerau_levenshtein s t ≤ levenshtein s t :=
  dam_le_lev s t

/-- C6: both distances of a string to itself are 0. -/
theorem c6_identity (s : List Char) :
    levenshtein s s = 0 ∧ damerau_levenshtein s s = 0 :=
  ⟨lev_self s, dam_self s⟩

/-- C7: the concrete values separating the metrics: a transposition costs
1 under Damerau but 2 under Levenshtein, and `"CA"`/`"ABC"` gives the
unrestricted-transposition value 2 rather than the
optimal-string-alignment value 3. -/
theorem c7_transposition_values :
    damerau_levenshtein ['a', 'b'] ['b', 'a'] = 1
      ∧ levenshtein ['a', 'b'] ['b', 'a'] = 2
      ∧ damerau_levenshtein ['C', 'A'] ['A', 'B', 'C'] = 2 := by
  decide

/-- C9: with both inputs non-empty and at least one containing a
multi-byte character (so its byte length exceeds its character count),
`levenshtein` returns the untouched grid cell, 0. -/
theorem c9_multibyte_returns_zero (s t : List Char)
    (hs : s ≠ []) (ht : t ≠ [])
    (hmb : byteLen s ≠ s.length ∨ byteLen t ≠ t.length) :
    levenshtein s t = 0 := by
  rw [lev_eq, if_neg hs, if_neg ht, if_neg (fun hc => by
    rcases hmb with h | h
    · exact h hc.1
    · exact h hc.2)]

/-- Witness for C9 at the concrete input `s = "a"`, `t = "é"`. -/
theorem c9_multibyte_returns_zero_witness :
    (['a'] : List Char) ≠ [] ∧ (['é'] : List Char) ≠ []
      ∧ byteLen ['é'] ≠ (['é'] : List Char).length
      ∧ levenshtein ['a'] ['é'] = 0 :=
  ⟨by decide, by decide, by decide,
    c9_multibyte_returns_zero ['a'] ['é'] (by decide) (by decide)
      (Or.inr (by decide))⟩

theorem csub_eq (a b : Nat) (h : b ≤ a) : csub a b = some (a - b) := by
  rw [csub, if_pos h]

theorem damFillColsSub_eq (t : List Char) (char_s : Char) (row : Nat)
    (last_row : Char → Nat) (hmap : ∀ c, last_row c < row) :
    ∀ rest colIdx lmc mat, lmc ≤ colIdx →
      damFillColsSub t char_s row last_row rest colIdx lmc mat
        = some (damFillCols t char_s row last_row rest colIdx lmc mat) := by
  intro rest
  induction rest with
  | nil => intro colIdx lmc mat _; rfl
  | cons char_t rest ih =>
    intro colIdx lmc mat hlmc
    have h1 := hmap char_t
    simp only [damFillColsSub, damFillCols]
    rw [csub_eq row (last_row char_t) (by omega), Option.some_bind,
      csub_eq (row - last_row char_t) 1 (by omega), Option.some_bind,
      csub_eq (colIdx + 1) lmc (by omega), Option.some_bind,
      csub_eq (colIdx + 1 - lmc) 1 (by omega), Option.some_bind]
    rw [ih (colIdx + 1) _ _
      (by by_cases hc : char_s = char_t <;> (simp [hc]; try omega))]

theorem damFillRowsSub_eq (t : List Char) :
    ∀ rest rowIdx last_row mat, (∀ c, last_row c ≤ rowIdx) →
      damFillRowsSub t rest rowIdx last_row mat
        = some (damFillRows t rest rowIdx last_row mat) := by
  intro rest
  induction rest with
  | nil => intro rowIdx last_row mat _; rfl
  | cons char_s rest ih =>
    intro rowIdx last_row mat hmap
    simp only [damFillRowsSub, damFillRows]
    rw [damFillColsSub_eq t char_s (rowIdx + 1) last_row
      (fun c => by have := hmap c; omega) t 0 0 mat (Nat.le_refl _),
      Option.some_bind]
    rw [ih (rowIdx + 1) _ _ (fun c => by have := hmap c; split <;> omega)]

/-- C8: the checked-subtraction variant always succeeds and agrees with
the implementation: in `dist_trans`, `last_match_row < row` and
`last_match_col < col` always hold, so the unsigned subtractions
`(row - last_match_row - 1)` and `(col - last_match_col - 1)` never take
the underflow branch. -/
theorem c8_no_underflow (source target : List Char) :
    damerau_levenshteinSub source target
      = some (damerau_levenshtein source target) := by
  simp only [damerau_levenshteinSub, damerau_levenshtein]
  by_cases h0 : byteLen source = 0
  · rw [if_pos h0, if_pos h0]
  · rw [if_neg h0, if_neg h0]
    by_cases h1 : byteLen target = 0
    · rw [if_pos h1, if_pos h1]
    · rw [if_neg h1, if_neg h1]
      by_cases h2 : byteLen source = byteLen target ∧ source = target
      · rw [if_pos h2, if_pos h2]
      · rw [if_neg h2, if_neg h2]
        rw [damFillRowsSub_eq target source 0 (fun _ => 0) _
          (fun c => Nat.le_refl 0)]
        rfl

theorem N2Array.getChk_eq (a : N2Array) (x y : Nat)
    (h : x * a.y_size + y < a.buf.length) :
    a.getChk x y = some (a.get x y) := by
  simp [N2Array.getChk, N2Array.get, List.get?_eq_getElem?,
    List.getElem?_eq_getElem h]

theorem N2Array.setChk_eq (a : N2Array) (x y v : Nat)
    (h : x * a.y_size + y < a.buf.length) :
    a.setChk x y v = some (a.set x y v) := by
  rw [N2Array.setChk, if_pos h]
  rfl

theorem levFillRowChk_eq (n m : Nat) (char_s : Char) (row : Nat)
    (_hrow1 : 1 ≤ row) (hrow : row ≤ n) :
    ∀ rest colIdx mat, mat.y_size = m + 1 →
      mat.buf.length = (n + 1) * (m + 1) →
      colIdx + rest.length ≤ m →
      levFillRowChk char_s row rest colIdx mat
        = some (levFillRow char_s row rest colIdx mat) := by
  intro rest
  induction rest with
  | nil => intro colIdx mat _ _ _; rfl
  | cons char_t rest ih =>
    intro colIdx mat hy hl hbound
    simp only [List.length_cons] at hbound
    simp only [levFillRowChk, levFillRow]
    by_cases hc : char_s = char_t
    · rw [if_pos hc, if_pos hc]
      rw [N2Array.getChk_eq _ _ _
        (by rw [hy, hl]; exact coordLt (by omega) (by omega)), Option.some_bind]
      rw [N2Array.setChk_eq _ _ _ _
        (by rw [hy, hl]; exact coordLt (by omega) (by omega)), Option.some_bind]
      exact ih (colIdx + 1) _ (by rw [N2Array.y_size_set, hy])
        (by rw [N2Array.length_buf_set, hl]) (by omega)
    · rw [if_neg hc, if_neg hc]
      rw [N2Array.getChk_eq _ _ _
        (by rw [hy, hl]; exact coordLt (by omega) (by omega)), Option.some_bind]
      rw [N2Array.getChk_eq _ _ _
        (by rw [hy, hl]; exact coordLt (by omega) (by omega)), Option.some_bind]
      rw [N2Array.getChk_eq _ _ _
        (by rw [hy, hl]; exact coordLt (by omega) (by omega)), Option.some_bind]
      rw [N2Array.setChk_eq _ _ _ _
        (by rw [hy, hl]; exact coordLt (by omega) (by omega)), Option.some_bind]
      exact ih (colIdx + 1) _ (by rw [N2Array.y_size_set, hy])
        (by rw [N2Array.length_buf_set, hl]) (by omega)

theorem levFillChk_eq (n m : Nat) (t : List Char) (hmt : t.length ≤ m) :
    ∀ rest rowIdx mat, mat.y_size = m + 1 →
      mat.buf.length = (n + 1) * (m + 1) →
      rowIdx + rest.length ≤ n →
      levFillChk t rest rowIdx mat = some (levFill t rest rowIdx mat) := by
  intro rest
  induction rest with
  | nil => intro rowIdx mat _ _ _; rfl
  | cons char_s rest ih =>
    intro rowIdx mat hy hl hbound
    simp only [List.length_cons] at hbound
    simp only [levFillChk, levFill]
    rw [levFillRowChk_eq n m char_s (rowIdx + 1) (by omega) (by omega) t 0 mat
      hy hl (by omega), Option.some_bind]
    exact ih (rowIdx + 1) _ (by rw [levFillRow_y_size, hy])
      (by rw [levFillRow_buf_length, hl]) (by omega)

theorem levInit1Chk_eq (n m : Nat) :
    ∀ k mat, k ≤ n → mat.y_size = m + 1 →
      mat.buf.length = (n + 1) * (m + 1) →
      iterNChk (fun k a => a.setChk (k + 1) 0 (k + 1)) k mat
        = some (iterN (fun k a => a.set (k + 1) 0 (k + 1)) k mat) := by
  intro k
  induction k with
  | zero => intro mat _ _ _; rfl
  | succ k ih =>
    intro mat hk hy hl
    rw [iterNChk, iterN, ih mat (by omega) hy hl, Option.some_bind]
    have hy' := iterN_y_size (fun k a => a.set (k + 1) 0 (k + 1))
      (fun _ _ => rfl) k mat
    have hl' := iterN_buf_length (fun k a => a.set (k + 1) 0 (k + 1))
      (fun _ _ => by simp [N2Array.length_buf_set]) k mat
    exact N2Array.setChk_eq _ _ _ _
      (by rw [hy', hy, hl', hl]; exact coordLt (by omega) (by omega))

theorem levInit2Chk_eq (n m : Nat) :
    ∀ k mat, k ≤ m → mat.y_size = m + 1 →
      mat.buf.length = (n + 1) * (m + 1) →
      iterNChk (fun k a => a.setChk 0 (k + 1) (k + 1)) k mat
        = some (iterN (fun k a => a.set 0 (k + 1) (k + 1)) k mat) := by
  intro k
  induction k with
  | zero => intro mat _ _ _; rfl
  | succ k ih =>
    intro mat hk hy hl
    rw [iterNChk, iterN, ih mat (by omega) hy hl, Option.some_bind]
    have hy' := iterN_y_size (fun k a => a.set 0 (k + 1) (k + 1))
      (fun _ _ => rfl) k mat
    have hl' := iterN_buf_length (fun k a => a.set 0 (k + 1) (k + 1))
      (fun _ _ => by simp [N2Array.length_buf_set]) k mat
    exact N2Array.setChk_eq _ _ _ _
      (by rw [hy', hy, hl', hl]; exact coordLt (by omega) (by omega))

theorem levenshteinChk_eq (source target : List Char) :
    levenshteinChk source target = some (levenshtein source target) := by
  simp only [levenshteinChk, levenshtein]
  rw [levInit1Chk_eq (byteLen source) (byteLen target) (byteLen source) _
    (Nat.le_refl _) (N2Array.y_size_new _ _ _) (N2Array.length_buf_new _ _ _),
    Option.some_bind]
  have hy1 := iterN_y_size (fun k a => a.set (k + 1) 0 (k + 1))
    (fun _ _ => rfl) (byteLen source)
    (N2Array.new (byteLen source + 1) (byteLen target + 1) 0)
  have hl1 := iterN_buf_length (fun k a => a.set (k + 1) 0 (k + 1))
    (fun _ _ => by simp [N2Array.length_buf_set]) (byteLen source)
    (N2Array.new (byteLen source + 1) (byteLen target + 1) 0)
  rw [N2Array.y_size_new] at hy1
  rw [N2Array.length_buf_new] at hl1
  rw [levInit2Chk_eq (byteLen source) (byteLen target) (byteLen target) _
    (Nat.le_refl _) hy1 hl1, Option.some_bind]
  have hy0 := iterN_y_size (fun k a => a.set 0 (k + 1) (k + 1))
    (fun _ _ => rfl) (byteLen target)
    (iterN (fun k a => a.set (k + 1) 0 (k + 1)) (byteLen source)
      (N2Array.new (byteLen source + 1) (byteLen target + 1) 0))
  have hl0 := iterN_buf_length (fun k a => a.set 0 (k + 1) (k + 1))
    (fun _ _ => by simp [N2Array.length_buf_set]) (byteLen target)
    (iterN (fun k a => a.set (k + 1) 0 (k + 1)) (byteLen source)
      (N2Array.new (byteLen source + 1) (byteLen target + 1) 0))
  rw [hy1] at hy0
  rw [hl1] at hl0
  rw [levFillChk_eq (byteLen source) (byteLen target) target
    (length_le_byteLen target) source 0 _ hy0 hl0
    (by have := length_le_byteLen source; omega), Option.some_bind]
  have hyF : (levFill target source 0
      (iterN (fun k a => a.set 0 (k + 1) (k + 1)) (byteLen target)
        (iterN (fun k a => a.set (k + 1) 0 (k + 1)) (byteLen source)
          (N2Array.new (byteLen source + 1) (byteLen target + 1) 0)))).y_size
      = byteLen target + 1 := by rw [levFill_y_size, hy0]
  have hlF : (levFill target source 0
      (iterN (fun k a => a.set 0 (k + 1) (k + 1)) (byteLen target)
        (iterN (fun k a => a.set (k + 1) 0 (k + 1)) (byteLen source)
          (N2Array.new (byteLen source + 1) (byteLen target + 1)
            0)))).buf.length
      = (byteLen source + 1) * (byteLen target + 1) := by
    rw [levFill_buf_length, hl0]
  rw [N2Array.getChk_eq _ _ _
    (by rw [hyF, hlF]; exact coordLt (Nat.le_refl _) (Nat.le_refl _))]

theorem damFillColsChk_eq (n m : Nat) (t : List Char) (char_s : Char)
    (row : Nat) (last_row : Char → Nat)
    (_hrow1 : 1 ≤ row) (hrow : row ≤ n)
    (hmap : ∀ c, last_row c ≤ n + 1) :
    ∀ rest colIdx lmc mat, mat.y_size = m + 2 →
      mat.buf.length = (n + 2) * (m + 2) →
      colIdx + rest.length ≤ m →
      lmc ≤ m + 1 →
      damFillColsChk t char_s row last_row rest colIdx lmc mat
        = some (damFillCols t char_s row last_row rest colIdx lmc mat) := by
  intro rest
  induction rest with
  | nil => intro colIdx lmc mat _ _ _ _; rfl
  | cons char_t rest ih =>
    intro colIdx lmc mat hy hl hbound hlmc
    simp only [List.length_cons] at hbound
    simp only [damFillColsChk, damFillCols]
    have hm1 := hmap char_t
    rw [N2Array.getChk_eq _ _ _
      (by rw [hy, hl]; exact coordLt2 (by omega) (by omega)), Option.some_bind]
    rw [N2Array.getChk_eq _ _ _
      (by rw [hy, hl]; exact coordLt2 (by omega) (by omega)), Option.some_bind]
    rw [N2Array.getChk_eq _ _ _
      (by rw [hy, hl]; exact coordLt2 (by omega) (by omega)), Option.some_bind]
    rw [N2Array.getChk_eq _ _ _
      (by rw [hy, hl]; exact coordLt2 (by omega) (by omega)), Option.some_bind]
    rw [N2Array.setChk_eq _ _ _ _
      (by rw [hy, hl]; exact coordLt2 (by omega) (by omega)), Option.some_bind]
    exact ih (colIdx + 1) _ _ (by rw [N2Array.y_size_set, hy])
      (by rw [N2Array.length_buf_set, hl]) (by omega)
      (by by_cases hc : char_s = char_t <;> (simp [hc]; try omega))

theorem damFillRowsChk_eq (n m : Nat) (t : List Char) :
    ∀ rest rowIdx last_row mat, mat.y_size = m + 2 →
      mat.buf.length = (n + 2) * (m + 2) →
      rowIdx + rest.length ≤ n →
      t.length ≤ m →
      (∀ c, last_row c ≤ n) →
      damFillRowsChk t rest rowIdx last_row mat
        = some (damFillRows t rest rowIdx last_row mat) := by
  intro rest
  induction rest with
  | nil => intro rowIdx last_row mat _ _ _ _ _; rfl
  | cons char_s rest ih =>
    intro rowIdx last_row mat hy hl hbound hmt hmap
    simp only [List.length_cons] at hbound
    simp only [damFillRowsChk, damFillRows]
    rw [damFillColsChk_eq n m t char_s (rowIdx + 1) last_row (by omega)
      (by omega) (fun c => by have := hmap c; omega) t 0 0 mat hy hl
      (by omega) (by omega), Option.some_bind]
    exact ih (rowIdx + 1) _ _ (by rw [damFillCols_y_size, hy])
      (by rw [damFillCols_buf_length, hl]) (by omega) hmt
      (fun c => by have := hmap c; split <;> omega)

theorem damInit1Chk_eq (n m inf : Nat) :
    ∀ k mat, k ≤ n + 1 → mat.y_size = m + 2 →
      mat.buf.length = (n + 2) * (m + 2) →
      iterNChk (fun i a => (a.setChk (i + 1) 0 inf).bind fun a' =>
        a'.setChk (i + 1) 1 i) k mat
        = some (iterN (fun i a => (a.set (i + 1) 0 inf).set (i + 1) 1 i) k
            mat) := by
  intro k
  induction k with
  | zero => intro mat _ _ _; rfl
  | succ k ih =>
    intro mat hk hy hl
    rw [iterNChk, iterN, ih mat (by omega) hy hl, Option.some_bind]
    have hy' := iterN_y_size
      (fun i a => (a.set (i + 1) 0 inf).set (i + 1) 1 i) (fun _ _ => rfl) k mat
    have hl' := iterN_buf_length
      (fun i a => (a.set (i + 1) 0 inf).set (i + 1) 1 i)
      (fun _ _ => by simp [N2Array.length_buf_set]) k mat
    rw [N2Array.setChk_eq _ _ _ _
      (by rw [hy', hy, hl', hl]; exact coordLt2 (by omega) (by omega)),
      Option.some_bind]
    exact N2Array.setChk_eq _ _ _ _
      (by rw [N2Array.y_size_set, N2Array.length_buf_set, hy', hy, hl', hl]
          exact coordLt2 (by omega) (by omega))

theorem damInit2Chk_eq (n m inf : Nat) :
    ∀ k mat, k ≤ m + 1 → mat.y_size = m + 2 →
      mat.buf.length = (n + 2) * (m + 2) →
      iterNChk (fun j a => (a.setChk 0 (j + 1) inf).bind fun a' =>
        a'.setChk 1 (j + 1) j) k mat
        = some (iterN (fun j a => (a.set 0 (j + 1) inf).set 1 (j + 1) j) k
            mat) := by
  intro k
  induction k with
  | zero => intro mat _ _ _; rfl
  | succ k ih =>
    intro mat hk hy hl
    rw [iterNChk, iterN, ih mat (by omega) hy hl, Option.some_bind]
    have hy' := iterN_y_size
      (fun j a => (a.set 0 (j + 1) inf).set 1 (j + 1) j) (fun _ _ => rfl) k mat
    have hl' := iterN_buf_length
      (fun j a => (a.set 0 (j + 1) inf).set 1 (j + 1) j)
      (fun _ _ => by simp [N2Array.length_buf_set]) k mat
    rw [N2Array.setChk_eq _ _ _ _
      (by rw [hy', hy, hl', hl]; exact coordLt2 (by omega) (by omega)),
      Option.some_bind]
    exact N2Array.setChk_eq _ _ _ _
      (by rw [N2Array.y_size_set, N2Array.length_buf_set, hy', hy, hl', hl]
          exact coordLt2 (by omega) (by omega))

theorem damerau_levenshteinChk_eq (source target : List Char) :
    damerau_levenshteinChk source target
      = some (damerau_levenshtein source target) := by
  simp only [damerau_levenshteinChk, damerau_levenshtein]
  by_cases h0 : byteLen source = 0
  · rw [if_pos h0, if_pos h0]
  · rw [if_neg h0, if_neg h0]
    by_cases h1 : byteLen target = 0
    · rw [if_pos h1, if_pos h1]
    · rw [if_neg h1, if_neg h1]
      by_cases h2 : byteLen source = byteLen target ∧ source = target
      · rw [if_pos h2, if_pos h2]
      · rw [if_neg h2, if_neg h2]
        rw [N2Array.setChk_eq _ _ _ _
          (by rw [N2Array.y_size_new, N2Array.length_buf_new]
              exact coordLt2 (by omega) (by omega)), Option.some_bind]
        have hyB : ((N2Array.new (byteLen source + 2) (byteLen target + 2)
            0).set 0 0 (byteLen source + byteLen target)).y_size
            = byteLen target + 2 := rfl
        have hlB : ((N2Array.new (byteLen source + 2) (byteLen target + 2)
            0).set 0 0 (byteLen source + byteLen target)).buf.length
            = (byteLen source + 2) * (byteLen target + 2) := by
          rw [N2Array.length_buf_set, N2Array.length_buf_new]
        rw [damInit1Chk_eq (byteLen source) (byteLen target)
          (byteLen source + byteLen target) (byteLen source + 1) _
          (Nat.le_refl _) hyB hlB, Option.some_bind]
        have hy1 := iterN_y_size (fun i a =>
          (a.set (i + 1) 0 (byteLen source + byteLen target)).set (i + 1) 1 i)
          (fun _ _ => rfl) (byteLen source + 1)
          ((N2Array.new (byteLen source + 2) (byteLen target + 2) 0).set 0 0
            (byteLen source + byteLen target))
        have hl1 := iterN_buf_length (fun i a =>
          (a.set (i + 1) 0 (byteLen source + byteLen target)).set (i + 1) 1 i)
          (fun _ _ => by simp [N2Array.length_buf_set]) (byteLen source + 1)
          ((N2Array.new (byteLen source + 2) (byteLen target + 2) 0).set 0 0
            (byteLen source + byteLen target))
        rw [hyB] at hy1
        rw [hlB] at hl1
        rw [damInit2Chk_eq (byteLen source) (byteLen target)
          (byteLen source + byteLen target) (byteLen target + 1) _
          (Nat.le_refl _) hy1 hl1, Option.some_bind]
        have hy2 := iterN_y_size (fun j a =>
          (a.set 0 (j + 1) (byteLen source + byteLen target)).set 1 (j + 1) j)
          (fun _ _ => rfl) (byteLen target + 1)
          (iterN (fun i a =>
            (a.set (i + 1) 0 (byteLen source + byteLen target)).set
              (i + 1) 1 i) (byteLen source + 1)
            ((N2Array.new (byteLen source + 2) (byteLen target + 2) 0).set 0 0
              (byteLen source + byteLen target)))
        have hl2 := iterN_buf_length (fun j a =>
          (a.set 0 (j + 1) (byteLen source + byteLen target)).set 1 (j + 1) j)
          (fun _ _ => by simp [N2Array.length_buf_set]) (byteLen target + 1)
          (iterN (fun i a =>
            (a.set (i + 1) 0 (byteLen source + byteLen target)).set
              (i + 1) 1 i) (byteLen source + 1)
            ((N2Array.new (byteLen source + 2) (byteLen target + 2) 0).set 0 0
              (byteLen source + byteLen target)))
        rw [hy1] at hy2
        rw [hl1] at hl2
        rw [damFillRowsChk_eq (byteLen source) (byteLen target) target source
          0 (fun _ => 0) _ hy2 hl2
          (by have := length_le_byteLen source; omega)
          (length_le_byteLen target) (fun c => Nat.zero_le _),
          Option.some_bind]
        have hyF : (damFillRows target source 0 (fun _ => 0)
            (iterN (fun j a =>
              (a.set 0 (j + 1) (byteLen source + byteLen target)).set
                1 (j + 1) j) (byteLen target + 1)
              (iterN (fun i a =>
                (a.set (i + 1) 0 (byteLen source + byteLen target)).set
                  (i + 1) 1 i) (byteLen source + 1)
                ((N2Array.new (byteLen source + 2) (byteLen target + 2)
                  0).set 0 0 (byteLen source + byteLen target))))).y_size
            = byteLen target + 2 := by rw [damFillRows_y_size, hy2]
        have hlF : (damFillRows target source 0 (fun _ => 0)
            (iterN (fun j a =>
              (a.set 0 (j + 1) (byteLen source + byteLen target)).set
                1 (j + 1) j) (byteLen target + 1)
              (iterN (fun i a =>
                (a.set (i + 1) 0 (byteLen source + byteLen target)).set
                  (i + 1) 1 i) (byteLen source + 1)
                ((N2Array.new (byteLen source + 2) (byteLen target + 2)
                  0).set 0 0
                  (byteLen source + byteLen target))))).buf.length
            = (byteLen source + 2) * (byteLen target + 2) := by
          rw [damFillRows_buf_length, hl2]
        rw [N2Array.getChk_eq _ _ _
          (by rw [hyF, hlF]; exact coordLt2 (Nat.le_refl _) (Nat.le_refl _))]

/-- C10: the bounds-checked variants of both functions always succeed and
agree with the unchecked implementations: every grid read and write lands
strictly inside the backing buffer, so the out-of-bounds branch is
unreachable and both functions are total. -/
theorem c10_all_accesses_in_bounds (source target : List Char) :
    levenshteinChk source target = some (levenshtein source target)
      ∧ damerau_levenshteinChk source target
        = some (damerau_levenshtein source target) :=
  ⟨levenshteinChk_eq source target, damerau_levenshteinChk_eq source target⟩

end Txtdist
